import Mathlib

/-!
# tsproxy: the connection-forwarding core of `src/tsproxy/main.go`

A shallow embedding of `main`, of the accept-loop goroutine started by `main`
and of `forward`, together with the behaviour of the library calls they make
(`net.JoinHostPort`, `io.Copy`, `select`, `go`, channel send and receive).

* Values the environment decides (what `Accept`, `Dial`, `Read`, `Write`,
  `cmd.Start`, `cmd.Wait` return) are inputs of the model.
* Goroutines are interleaved by an explicit schedule.
* Everything observable is recorded as a list of `Event`s.
-/

namespace Tsproxy

/-! ## Values -/

/-- One octet of a stream. The relay never inspects octets. -/
abbrev Byte := Nat

/-- A non-nil Go `error`. A nil `error` is `none : Option Err`. -/
inductive Err
  | eof
  | errShortWrite
  | errInvalidWrite
  | other (msg : String)
  deriving DecidableEq, Repr

/-- The text that the verb `%v` prints for an `error`. -/
def renderErr : Option Err → String
  | none => "<nil>"
  | some .eof => "EOF"
  | some .errShortWrite => "short write"
  | some .errInvalidWrite => "invalid write result"
  | some (.other msg) => msg

/-- The result of one `Read(buf)` call: the bytes placed in `buf` and the error. -/
structure ReadRes where
  data : List Byte
  err : Option Err
  deriving DecidableEq, Repr

/-- The result of one `Write(p)` call: the count it reports and the error. -/
structure WriteRes where
  nw : Nat
  err : Option Err
  deriving DecidableEq, Repr

/-- A `net.Conn` as the relay sees it.
`rd` lists what the successive `Read` calls will return; when it is exhausted
the next `Read` blocks (the other end neither sends nor closes).
`wr` lists the results of the successive `Write` calls; when it is exhausted
a `Write` accepts all of its bytes.
`closed` is the open/closed status of the connection. -/
structure Conn where
  rd : List ReadRes
  wr : List WriteRes
  closed : Bool
  deriving DecidableEq, Repr

/-- The two copy directions of `forward`. `backendToInbound` is the spawned
goroutine `io.Copy(conn, fwd)`; `inboundToBackend` is the call
`io.Copy(fwd, conn)` made by `forward` itself. -/
inductive Dir
  | backendToInbound
  | inboundToBackend
  deriving DecidableEq, Repr

/-- Everything the program does that can be observed from outside. -/
inductive Event
  | cmdStart (entrypoint : String)
  | listenTLS (network addr : String)
  | panicked (e : Err)
  | logf (format : String) (args : List String)
  | makeChan
  | goAcceptLoop
  | cmdWaitCall
  | cmdWaitRet (e : Option Err)
  | chanSendCall
  | chanSend
  | chanRecv
  | chanClose
  | acceptCall
  | goForward (conn : Conn) (port : String)
  | dial (network addr : String)
  | goCopy
  | copyCall (d : Dir)
  | copyRet (d : Dir) (e : Option Err)
  | nilDeref (d : Dir)
  | connClose (inbound : Bool)
  deriving DecidableEq, Repr

/-! ## `handle` and `main` -/

/-- `handle(err)`: panics with `err` when it is not nil. -/
def handle (err : Option Err) : Except Err Unit :=
  match err with
  | some e => .error e
  | none => .ok ()

/-- What the environment decides during `main`.
`waitRes = none` is a backend that never exits (`cmd.Wait` does not return).
`sendTaken` tells whether the accept loop ever receives from `done`: the
channel is unbuffered and the loop polls it only between two `Accept` calls,
so a loop that stays parked in `Accept` never takes the value. -/
structure MainEnv where
  startErr : Option Err
  listenErr : Option Err
  waitRes : Option (Option Err)
  sendTaken : Bool
  deriving DecidableEq, Repr

/-- How the main goroutine ends. -/
inductive Status
  | returned
  | panicked
  | blocked
  deriving DecidableEq, Repr

/-- The function `main`: the events of the main goroutine and how it ends.
`chanSendCall` is `main` reaching `done <- true`; `chanSend` is that send
completing, which needs the accept loop to receive. When the loop never
receives, `main` stays blocked in the send and does not return. -/
def main (hostname entrypoint port : String) (env : MainEnv) : List Event × Status :=
  let t0 := [Event.cmdStart entrypoint]
  match handle env.startErr with
  | .error e => (t0 ++ [.panicked e], .panicked)
  | .ok () =>
    let t1 := t0 ++ [.listenTLS "tcp" ":443"]
    match handle env.listenErr with
    | .error e => (t1 ++ [.panicked e], .panicked)
    | .ok () =>
      let t2 := t1 ++
        [.logf "tsproxy forwarding from https://%s to localhost:%v\n" [hostname, port],
         .makeChan, .goAcceptLoop, .cmdWaitCall]
      match env.waitRes with
      | none => (t2, .blocked)
      | some err =>
        let t3 := t2 ++
          [.cmdWaitRet err, .logf "node exited with err: %v\n" [renderErr err], .chanSendCall]
        if env.sendTaken then (t3 ++ [.chanSend], .returned) else (t3, .blocked)

/-! ## The accept loop -/

/-- How a statement completes: normally, by `break`, or by `continue`. -/
inductive Signal
  | next
  | brk
  | cont
  deriving DecidableEq, Repr

/-- What one iteration of the accept loop meets: either a sender is waiting on
`done`, or the `default` case runs and `ln.Accept()` returns `r`. -/
inductive LoopEnv
  | doneReady
  | accept (r : Except Err Conn)

/-- The case `case <-done: break`. -/
def doneCase : List Event × Signal :=
  ([.chanRecv], .brk)

/-- The case `default:` of the select statement. -/
def defaultCase (port : String) (r : Except Err Conn) : List Event × Signal :=
  match r with
  | .error e =>
    ([.acceptCall, .logf "tsproxy couldn't accept connection: %v\n" [renderErr (some e)]], .cont)
  | .ok conn => ([.acceptCall, .goForward conn port], .next)

/-- The `select` statement of the loop body. In Go an unlabelled `break`
terminates the innermost `for`, `switch` or `select`: a `break` raised by one
of the cases ends the `select` itself, which then completes normally. -/
def selectStmt (port : String) (ev : LoopEnv) : List Event × Signal :=
  let r := match ev with
    | .doneReady => doneCase
    | .accept a => defaultCase port a
  (r.1, match r.2 with
        | .brk => .next
        | s => s)

/-- The statement `for { select ... }`, run on what the successive iterations
meet. The second component tells whether the loop was left (a `break` reached
the `for`); with the input exhausted the loop is still running. -/
def acceptLoop (port : String) : List LoopEnv → List Event × Bool
  | [] => ([], false)
  | ev :: rest =>
    let r := selectStmt port ev
    match r.2 with
    | .brk => (r.1, true)
    | _ => (r.1 ++ (acceptLoop port rest).1, (acceptLoop port rest).2)

/-- The relays an event list dispatches, in order: connection and port. -/
def dispatched (t : List Event) : List (Conn × String) :=
  t.filterMap fun
    | .goForward c p => some (c, p)
    | _ => none

/-- The connections among a list of `Accept` results, in order. -/
def accepted (rs : List (Except Err Conn)) : List Conn :=
  rs.filterMap fun
    | .ok c => some c
    | .error _ => none

/-! ## `forward` -/

/-- The library function `net.JoinHostPort`: a host that contains a colon is
taken for a literal IPv6 address and put in brackets. -/
def joinHostPort (host port : String) : String :=
  if ':' ∈ host.toList then "[" ++ host ++ "]:" ++ port else host ++ ":" ++ port

/-- `c.Read(buf)`: the next scripted result and the connection afterwards;
`none` when the call blocks. -/
def Conn.read (c : Conn) : Option (ReadRes × Conn) :=
  match c.rd with
  | [] => none
  | r :: rest => some (r, { c with rd := rest })

/-- `c.Write(p)`: the result of the call, the bytes that reach the other end,
and the connection afterwards. -/
def Conn.write (c : Conn) (p : List Byte) : WriteRes × List Byte × Conn :=
  match c.wr with
  | [] => ({ nw := p.length, err := none }, p, c)
  | w :: rest => (w, p.take w.nw, { c with wr := rest })

/-- The two connections of one `forward` call and what has crossed them so far.
`fwd = none` is the nil `net.Conn` that a failed `net.Dial` returns.
`inRead` are the bytes read from the inbound connection, `inWritten` the bytes
written to it; `beRead` and `beWritten` are the same for the backend one. -/
structure World where
  conn : Conn
  fwd : Option Conn
  inRead : List Byte
  inWritten : List Byte
  beRead : List Byte
  beWritten : List Byte
  deriving DecidableEq, Repr

/-- How one pass through the loop of `io.Copy` ends. -/
inductive CopyRes
  | more
  | ret (err : Option Err)
  | blocked
  | nilDeref
  deriving DecidableEq, Repr

/-- The source of a copy direction. -/
def World.src (w : World) : Dir → Option Conn
  | .backendToInbound => w.fwd
  | .inboundToBackend => some w.conn

/-- The destination of a copy direction. -/
def World.dst (w : World) : Dir → Option Conn
  | .backendToInbound => some w.conn
  | .inboundToBackend => w.fwd

/-- Record a `Read` of `data` from the source of direction `d`, which becomes `s`. -/
def World.afterRead (w : World) (d : Dir) (s : Conn) (data : List Byte) : World :=
  match d with
  | .backendToInbound => { w with fwd := some s, beRead := w.beRead ++ data }
  | .inboundToBackend => { w with conn := s, inRead := w.inRead ++ data }

/-- Record a `Write` that delivered `data` to the destination of direction `d`,
which becomes `t`. -/
def World.afterWrite (w : World) (d : Dir) (t : Conn) (data : List Byte) : World :=
  match d with
  | .backendToInbound => { w with conn := t, inWritten := w.inWritten ++ data }
  | .inboundToBackend => { w with fwd := some t, beWritten := w.beWritten ++ data }

/-- The end of one pass of the copy loop: `if er != nil { if er != EOF { err = er }; break }`. -/
def readErrCheck (er : Option Err) : CopyRes :=
  match er with
  | none => .more
  | some .eof => .ret none
  | some e => .ret (some e)

/-- The checks `io.Copy` makes on the result of `dst.Write(buf[0:nr])`:
`if nw < 0 || nr < nw { nw = 0; if ew == nil { ew = errInvalidWrite } }`,
`if ew != nil { err = ew; break }`, `if nr != nw { err = ErrShortWrite; break }`,
and then the check of the read error. -/
def writeCheck (nr : Nat) (wres : WriteRes) (er : Option Err) : CopyRes :=
  let bad := decide (nr < wres.nw)
  let nw := if bad then 0 else wres.nw
  let ew := if bad && wres.err.isNone then some Err.errInvalidWrite else wres.err
  match ew with
  | some e => .ret (some e)
  | none => if nr ≠ nw then .ret (some .errShortWrite) else readErrCheck er

/-- One pass through the loop of `io.Copy(dst, src)` for direction `d`
(the generic loop of `io.copyBuffer`): one `src.Read`, then, if it returned
bytes, one `dst.Write` of exactly those bytes, then the error checks.
A method call on a nil `net.Conn` is a nil-pointer dereference. -/
def copyStep (d : Dir) (w : World) : World × CopyRes :=
  match w.src d with
  | none => (w, .nilDeref)
  | some s =>
    match s.read with
    | none => (w, .blocked)
    | some (r, s1) =>
      if 0 < r.data.length then
        match (w.afterRead d s1 r.data).dst d with
        | none => (w.afterRead d s1 r.data, .nilDeref)
        | some t =>
          ((w.afterRead d s1 r.data).afterWrite d (t.write r.data).2.2 (t.write r.data).2.1,
           writeCheck r.data.length (t.write r.data).1 r.err)
      else (w.afterRead d s1 r.data, readErrCheck r.err)

/-- Where a copy task of `forward` stands. -/
inductive Pc
  | start
  | copying
  | copied (err : Option Err)
  | done
  | crashed
  deriving DecidableEq, Repr

/-- The state of one `forward` call: the connections, the spawned goroutine
`g` (backend to inbound), the rest of `forward` itself `m` (inbound to
backend), and the events so far. -/
structure FwdState where
  world : World
  g : Pc
  m : Pc
  trace : List Event
  deriving DecidableEq, Repr

/-- The program counter of a direction. -/
def FwdState.pc (s : FwdState) : Dir → Pc
  | .backendToInbound => s.g
  | .inboundToBackend => s.m

/-- Set the program counter of a direction. -/
def FwdState.setPc (s : FwdState) (d : Dir) (p : Pc) : FwdState :=
  match d with
  | .backendToInbound => { s with g := p }
  | .inboundToBackend => { s with m := p }

/-- Append an event. -/
def FwdState.emit (s : FwdState) (e : Event) : FwdState :=
  { s with trace := s.trace ++ [e] }

/-- The format string each direction logs its error with. -/
def logFormat : Dir → String
  | .backendToInbound => "tsproxy conn to backend err: %v\n"
  | .inboundToBackend => "tsproxy conn from backend err: %v\n"

/-- The start of `forward(conn, port)`, up to and including the `go`
statement: the dial, the log line when the dial failed (after which the
function goes on), and the spawn. `dialer` is what `net.Dial` answers. -/
def forwardStart (dialer : String → String → Except Err Conn) (conn : Conn) (port : String) :
    FwdState :=
  let addr := joinHostPort "localhost" port
  match dialer "tcp" addr with
  | .error e =>
    { world := { conn := conn, fwd := none, inRead := [], inWritten := [], beRead := [],
                 beWritten := [] },
      g := .start, m := .start,
      trace := [.dial "tcp" addr,
                .logf "tsproxy couldn't connect to js backend: %v\n" [renderErr (some e)],
                .goCopy] }
  | .ok fwd =>
    { world := { conn := conn, fwd := some fwd, inRead := [], inWritten := [], beRead := [],
                 beWritten := [] },
      g := .start, m := .start,
      trace := [.dial "tcp" addr, .goCopy] }

/-- One step of the copy task of direction `d`: entering `io.Copy`, one pass
of its loop, or the `if err != nil { log.Printf(...) }` after it returned. -/
def taskStep (d : Dir) (s : FwdState) : FwdState :=
  match s.pc d with
  | .start => (s.setPc d .copying).emit (.copyCall d)
  | .copying =>
    match copyStep d s.world with
    | (w, .more) => { s with world := w }
    | (_, .blocked) => s
    | (w, .ret e) => (({ s with world := w }).setPc d (.copied e)).emit (.copyRet d e)
    | (w, .nilDeref) => (({ s with world := w }).setPc d .crashed).emit (.nilDeref d)
  | .copied (some e) => (s.setPc d .done).emit (.logf (logFormat d) [renderErr (some e)])
  | .copied none => s.setPc d .done
  | .done => s
  | .crashed => s

/-- A panic in either goroutine has ended the process. -/
def FwdState.crashed (s : FwdState) : Bool :=
  decide (s.g = .crashed) || decide (s.m = .crashed)

/-- Both copy directions are over. -/
def FwdState.finished (s : FwdState) : Bool :=
  decide (s.g = .done) && decide (s.m = .done)

/-- One scheduling step: the task of direction `d` runs, unless the process is dead. -/
def step (d : Dir) (s : FwdState) : FwdState :=
  if s.crashed then s else taskStep d s

/-- Run a schedule. -/
def run (s : FwdState) : List Dir → FwdState
  | [] => s
  | d :: ds => run (step d s) ds

/-- The function `forward(conn, port)`, its two goroutines run under the
schedule `sched`: the state it has reached. -/
def forward (dialer : String → String → Except Err Conn) (conn : Conn) (port : String)
    (sched : List Dir) : FwdState :=
  run (forwardStart dialer conn port) sched

/-- The dial events of an event list: network and address. -/
def dials (t : List Event) : List (String × String) :=
  t.filterMap fun
    | .dial n a => some (n, a)
    | _ => none

/-- How many times an event list enters the copy of direction `d`. -/
def copyCalls (d : Dir) (t : List Event) : Nat :=
  t.count (.copyCall d)

/-- The results the copy of direction `d` returned, in order. -/
def copyRets (d : Dir) (t : List Event) : List (Option Err) :=
  t.filterMap fun
    | .copyRet d1 e => if d1 = d then some e else none
    | _ => none

/-- The log lines of direction `d`: the arguments printed with its format. -/
def copyLogs (d : Dir) (t : List Event) : List (List String) :=
  t.filterMap fun
    | .logf f args => if f = logFormat d then some args else none
    | _ => none

/-- The log line a copy result calls for: none for nil, one for an error. -/
def expectedLogs : Option Err → List (List String)
  | none => []
  | some e => [[renderErr (some e)]]

/-- The bytes a list of read results carries. -/
def bytesOf (rs : List ReadRes) : List Byte :=
  (rs.map ReadRes.data).flatten

/-- A stream that delivers the chunks `pre` and then ends: every read but the
last returns a chunk with a nil error, and one returns `last` with `io.EOF`. -/
def streamOf (pre : List (List Byte)) (last : List Byte) : List ReadRes :=
  pre.map (fun c => { data := c, err := none }) ++ [{ data := last, err := some .eof }]

/-- How often direction `d` is scheduled. -/
def turns (d : Dir) (sched : List Dir) : Nat :=
  sched.count d

/-! ## The process: accept loop and relays together -/

/-- A relay goroutine: spawned by `go forward(conn, port)` and not yet run, or running. -/
inductive Relay
  | spawned (conn : Conn) (port : String)
  | running (s : FwdState)
  deriving DecidableEq, Repr

/-- The relay has panicked. -/
def Relay.crashed : Relay → Bool
  | .spawned _ _ => false
  | .running s => s.crashed

/-- The accept loop and the relays it has spawned. `pending` is what the coming
iterations of the loop will meet; with `pending = []` the loop is blocked in
`Accept`. -/
structure Sys where
  pending : List LoopEnv
  loopTrace : List Event
  loopExited : Bool
  relays : List Relay

/-- The relays spawned by the events of one iteration. -/
def spawnedBy (t : List Event) : List Relay :=
  (dispatched t).map fun cp => .spawned cp.1 cp.2

/-- One iteration of the accept loop inside the process. -/
def loopStep (port : String) (sys : Sys) : Sys :=
  if sys.loopExited then sys
  else
    match sys.pending with
    | [] => sys
    | ev :: rest =>
      let r := selectStmt port ev
      { pending := rest,
        loopTrace := sys.loopTrace ++ r.1,
        loopExited := decide (r.2 = .brk),
        relays := sys.relays ++ spawnedBy r.1 }

/-- One step of relay goroutine number `i`: a spawned relay starts `forward`,
a running one takes a step of direction `d`. -/
def relayStep (dialer : Nat → String → String → Except Err Conn) (i : Nat) (d : Dir) :
    Relay → Relay
  | .spawned c p => .running (forwardStart (dialer i) c p)
  | .running s => .running (step d s)

/-- What the scheduler may run next. -/
inductive Choice
  | loop
  | relay (i : Nat) (d : Dir)
  deriving DecidableEq, Repr

/-- The process has died of a panic in one of its goroutines. -/
def Sys.crashed (sys : Sys) : Bool :=
  sys.relays.any Relay.crashed

/-- One scheduling step of the process. An unrecovered panic in any goroutine
ends the whole program: nothing runs afterwards. -/
def sysStep (dialer : Nat → String → String → Except Err Conn) (port : String) (ch : Choice)
    (sys : Sys) : Sys :=
  if sys.crashed then sys
  else
    match ch with
    | .loop => loopStep port sys
    | .relay i d => { sys with relays := sys.relays.modify (relayStep dialer i d) i }

/-- Run a schedule of the process. -/
def sysRun (dialer : Nat → String → String → Except Err Conn) (port : String) (sys : Sys) :
    List Choice → Sys
  | [] => sys
  | ch :: rest => sysRun dialer port (sysStep dialer port ch sys) rest

/-- The events a step of the copy task of direction `d` can add. -/
def copyEvent (d : Dir) (e : Event) : Prop :=
  e = .copyCall d ∨ (∃ r, e = .copyRet d r) ∨ e = .nilDeref d ∨
    ∃ err, e = .logf (logFormat d) [renderErr (some err)]

/-- The open/closed status of the two connections. -/
def World.status (w : World) : Bool × Option Bool :=
  (w.conn.closed, w.fwd.map Conn.closed)

/-- What the events of direction `d` must be when its task stands at `p`:
the copy is entered once when the task has started, it has returned once when
the task is past it, and the log line is there exactly for a returned error. -/
def traceOk (d : Dir) (p : Pc) (t : List Event) : Prop :=
  match p with
  | .start => copyCalls d t = 0 ∧ copyRets d t = [] ∧ copyLogs d t = []
  | .copying => copyCalls d t = 1 ∧ copyRets d t = [] ∧ copyLogs d t = []
  | .copied e => copyCalls d t = 1 ∧ copyRets d t = [e] ∧ copyLogs d t = []
  | .done => copyCalls d t = 1 ∧ ∃ e, copyRets d t = [e] ∧ copyLogs d t = expectedLogs e
  | .crashed => copyCalls d t = 1 ∧ copyRets d t = [] ∧ copyLogs d t = []

/-- The dial succeeded and no goroutine has panicked. -/
def FwdState.alive (s : FwdState) : Prop :=
  s.world.fwd.isSome = true ∧ s.g ≠ .crashed ∧ s.m ≠ .crashed

/-- No `Write` on either connection fails or falls short. -/
def World.noWriteFault (w : World) : Prop :=
  w.conn.wr = [] ∧ ∀ f, w.fwd = some f → f.wr = []

/-- What the coming reads of the source of direction `d` return. -/
def World.srcRd (w : World) (d : Dir) : List ReadRes :=
  match w.src d with
  | some c => c.rd
  | none => []

/-- The bytes direction `d` has read from its source. -/
def World.readLog (w : World) : Dir → List Byte
  | .backendToInbound => w.beRead
  | .inboundToBackend => w.inRead

/-- The bytes direction `d` has written to its destination. -/
def World.writeLog (w : World) : Dir → List Byte
  | .backendToInbound => w.inWritten
  | .inboundToBackend => w.beWritten

/-- What direction `d` owns of a relay state: its program counter, what its
source will still return, the bytes it has read and written, and the results
its copy has returned. -/
def FwdState.view (s : FwdState) (d : Dir) :
    Pc × List ReadRes × List Byte × List Byte × List (Option Err) :=
  (s.pc d, s.world.srcRd d, s.world.readLog d, s.world.writeLog d, copyRets d s.trace)

/-! ## Sample inputs -/

/-- An inbound connection whose peer sends `[1, 2]`, then `[3]`, then closes. -/
def sampleConn : Conn :=
  { rd := streamOf [[1, 2], [3]] [], wr := [], closed := false }

/-- A backend connection on which the backend answers `[9]` and closes. -/
def sampleBackend : Conn :=
  { rd := streamOf [[9]] [], wr := [], closed := false }

/-- A dialer that reaches the backend. -/
def sampleDialer : String → String → Except Err Conn :=
  fun _ _ => .ok sampleBackend

/-- A schedule that lets both directions of the sample relay finish. -/
def sampleSched : List Dir :=
  [.backendToInbound, .inboundToBackend, .inboundToBackend, .backendToInbound,
   .inboundToBackend, .backendToInbound, .inboundToBackend, .backendToInbound,
   .inboundToBackend]

/-- An environment of `main` in which the backend starts, the listener opens,
the backend later exits and the accept loop takes the shutdown signal. -/
def sampleMainEnv : MainEnv :=
  { startErr := none, listenErr := none, waitRes := some none, sendTaken := true }

/-- An environment of `main` in which `node` cannot be started. -/
def failedStartEnv : MainEnv :=
  { startErr := some (.other "exec: node: not found"), listenErr := none, waitRes := some none,
    sendTaken := true }

/-- An environment of `main` in which the backend starts and never exits. -/
def runningBackendEnv : MainEnv :=
  { startErr := none, listenErr := none, waitRes := none, sendTaken := true }

/-- An environment of `main` in which the backend exits while the accept loop
stays parked in `Accept` (no further connection arrives). -/
def parkedLoopEnv : MainEnv :=
  { startErr := none, listenErr := none, waitRes := some none, sendTaken := false }

/-- An inbound connection whose peer sends `[7]` and then resets. -/
def resetConn : Conn :=
  { rd := [{ data := [7], err := some (.other "connection reset by peer") }], wr := [],
    closed := false }

/-! ## The accept loop: lemmas -/

theorem selectStmt_ne_brk (port : String) (ev : LoopEnv) : (selectStmt port ev).2 ≠ .brk := by
  cases ev with
  | doneReady => simp [selectStmt, doneCase]
  | accept a =>
    cases a <;> simp [selectStmt, defaultCase]

theorem acceptLoop_cons (port : String) (ev : LoopEnv) (rest : List LoopEnv) :
    acceptLoop port (ev :: rest)
      = ((selectStmt port ev).1 ++ (acceptLoop port rest).1, (acceptLoop port rest).2) := by
  have h := selectStmt_ne_brk port ev
  cases hs : (selectStmt port ev).2 with
  | brk => exact absurd hs h
  | next => simp only [acceptLoop, hs]
  | cont => simp only [acceptLoop, hs]

theorem acceptLoop_running (port : String) (evs : List LoopEnv) :
    (acceptLoop port evs).2 = false := by
  induction evs with
  | nil => rfl
  | cons ev rest ih => rw [acceptLoop_cons]; exact ih

theorem dispatched_append (a b : List Event) :
    dispatched (a ++ b) = dispatched a ++ dispatched b := by
  simp [dispatched, List.filterMap_append]

theorem acceptLoop_dispatched (port : String) (rs : List (Except Err Conn)) :
    dispatched (acceptLoop port (rs.map LoopEnv.accept)).1
      = (accepted rs).map (fun c => (c, port)) := by
  induction rs with
  | nil => rfl
  | cons r rest ih =>
    rw [List.map_cons, acceptLoop_cons, dispatched_append, ih]
    cases r <;> simp [selectStmt, defaultCase, dispatched, accepted]

theorem acceptLoop_acceptCalls (port : String) (rs : List (Except Err Conn)) :
    (acceptLoop port (rs.map LoopEnv.accept)).1.count .acceptCall = rs.length := by
  induction rs with
  | nil => rfl
  | cons r rest ih =>
    rw [List.map_cons, acceptLoop_cons, List.count_append, ih]
    cases r <;> simp [selectStmt, defaultCase, List.count_cons] <;> omega

/-! ## `forward`: lemmas -/

theorem joinHostPort_localhost (p : String) : joinHostPort "localhost" p = "localhost:" ++ p := by
  unfold joinHostPort
  rw [if_neg (by decide)]
  rfl

theorem setPc_trace (s : FwdState) (d : Dir) (p : Pc) : (s.setPc d p).trace = s.trace := by
  cases d <;> rfl

theorem setPc_world (s : FwdState) (d : Dir) (p : Pc) : (s.setPc d p).world = s.world := by
  cases d <;> rfl

theorem setPc_pc_same (s : FwdState) (d : Dir) (p : Pc) : (s.setPc d p).pc d = p := by
  cases d <;> rfl

theorem setPc_pc_other (s : FwdState) (d d1 : Dir) (p : Pc) (h : d1 ≠ d) :
    (s.setPc d p).pc d1 = s.pc d1 := by
  cases d <;> cases d1 <;> first | rfl | exact absurd rfl h

theorem emit_trace (s : FwdState) (e : Event) : (s.emit e).trace = s.trace ++ [e] := rfl

theorem emit_world (s : FwdState) (e : Event) : (s.emit e).world = s.world := rfl

theorem emit_pc (s : FwdState) (e : Event) (d : Dir) : (s.emit e).pc d = s.pc d := by
  cases d <;> rfl

theorem taskStep_trace (d : Dir) (s : FwdState) :
    (taskStep d s).trace = s.trace ∨
      ∃ e, copyEvent d e ∧ (taskStep d s).trace = s.trace ++ [e] := by
  unfold taskStep
  split
  · exact Or.inr ⟨_, Or.inl rfl, by cases d <;> rfl⟩
  · split
    · exact Or.inl rfl
    · exact Or.inl rfl
    · next w e _ =>
      exact Or.inr ⟨.copyRet d e, Or.inr (Or.inl ⟨e, rfl⟩), by cases d <;> rfl⟩
    · exact Or.inr ⟨_, Or.inr (Or.inr (Or.inl rfl)), by cases d <;> rfl⟩
  · next e _ =>
    exact Or.inr ⟨.logf (logFormat d) [renderErr (some e)],
      Or.inr (Or.inr (Or.inr ⟨e, rfl⟩)), by cases d <;> rfl⟩
  · exact Or.inl (by cases d <;> rfl)
  · exact Or.inl rfl
  · exact Or.inl rfl

theorem step_trace (d : Dir) (s : FwdState) :
    (step d s).trace = s.trace ∨
      ∃ e, copyEvent d e ∧ (step d s).trace = s.trace ++ [e] := by
  unfold step
  split
  · exact Or.inl rfl
  · exact taskStep_trace d s

theorem run_trace (s : FwdState) (sched : List Dir) :
    ∃ evs, (run s sched).trace = s.trace ++ evs ∧ ∀ e ∈ evs, ∃ d, copyEvent d e := by
  induction sched generalizing s with
  | nil => exact ⟨[], by simp [run], by simp⟩
  | cons d ds ih =>
    obtain ⟨evs, h1, h2⟩ := ih (step d s)
    rcases step_trace d s with h | ⟨e, he, h⟩
    · exact ⟨evs, by rw [run, h1, h], h2⟩
    · refine ⟨e :: evs, by rw [run, h1, h]; simp, ?_⟩
      intro x hx
      rcases List.mem_cons.mp hx with rfl | hx
      · exact ⟨d, he⟩
      · exact h2 x hx

theorem read_closed (c c1 : Conn) (r : ReadRes) (h : c.read = some (r, c1)) :
    c1.closed = c.closed ∧ c1.wr = c.wr ∧ c.rd = r :: c1.rd := by
  unfold Conn.read at h
  split at h
  · exact absurd h (by simp)
  · next r0 rest hrd =>
    simp only [Option.some.injEq, Prod.mk.injEq] at h
    obtain ⟨rfl, rfl⟩ := h
    exact ⟨rfl, rfl, hrd⟩

theorem write_closed (c : Conn) (p : List Byte) :
    (c.write p).2.2.closed = c.closed ∧ (c.write p).2.2.rd = c.rd := by
  unfold Conn.write
  split <;> exact ⟨rfl, rfl⟩

theorem copyStep_status (d : Dir) (w : World) : (copyStep d w).1.status = w.status := by
  unfold copyStep
  split
  · rfl
  · next s hs =>
    split
    · rfl
    · next r s1 hr =>
      obtain ⟨hc, -, -⟩ := read_closed _ _ _ hr
      have h1 : (w.afterRead d s1 r.data).status = w.status := by
        cases d
        · simp only [World.src] at hs
          simp [World.afterRead, World.status, hs, hc]
        · simp only [World.src, Option.some.injEq] at hs
          subst hs
          simp [World.afterRead, World.status, hc]
      have h2 : ∀ t, (w.afterRead d s1 r.data).dst d = some t →
          ((w.afterRead d s1 r.data).afterWrite d (t.write r.data).2.2 (t.write r.data).2.1).status
            = w.status := by
        intro t ht
        rw [← h1]
        have hw := (write_closed t r.data).1
        cases d
        · simp only [World.dst, Option.some.injEq] at ht
          subst ht
          simp [World.afterWrite, World.status, hw]
        · simp only [World.dst] at ht
          simp [World.afterWrite, World.status, hw, ht]
      split
      · split
        · exact h1
        · next t ht => exact h2 t ht
      · exact h1

theorem readErrCheck_ne_nilDeref (er : Option Err) : readErrCheck er ≠ .nilDeref := by
  unfold readErrCheck
  split <;> simp

theorem writeCheck_ne_nilDeref (nr : Nat) (wres : WriteRes) (er : Option Err) :
    writeCheck nr wres er ≠ .nilDeref := by
  have h := readErrCheck_ne_nilDeref er
  unfold writeCheck
  dsimp only
  split
  · simp
  · split <;> split <;> first | exact h | simp

theorem copyStep_fwd (d : Dir) (w : World) (h : w.fwd.isSome = true) :
    (copyStep d w).1.fwd.isSome = true ∧ (copyStep d w).2 ≠ .nilDeref := by
  obtain ⟨f, hf⟩ := Option.isSome_iff_exists.mp h
  have h1 : ∀ s data, (w.afterRead d s data).fwd.isSome = true := by
    intro s data
    cases d <;> simp [World.afterRead, hf]
  have h2 : ∀ (w1 : World) t data, w1.fwd.isSome = true →
      (w1.afterWrite d t data).fwd.isSome = true := by
    intro w1 t data hw
    cases d
    · simpa [World.afterWrite] using hw
    · simp [World.afterWrite]
  have h3 : ∀ w1 : World, w1.fwd.isSome = true → w1.dst d ≠ none := by
    intro w1 hw
    cases d
    · simp [World.dst]
    · simpa [World.dst, Option.isSome_iff_ne_none] using hw
  unfold copyStep
  split
  · next hs =>
    cases d
    · simp [World.src, hf] at hs
    · simp [World.src] at hs
  · split
    · exact ⟨h, by simp⟩
    · next r s1 _ =>
      split
      · split
        · next hn => exact absurd hn (h3 _ (h1 s1 r.data))
        · exact ⟨h2 _ _ _ (h1 s1 r.data), writeCheck_ne_nilDeref _ _ _⟩
      · exact ⟨h1 s1 r.data, readErrCheck_ne_nilDeref _⟩

/-- How a step of the task of direction `d` moves its program counter and
what it adds to the events. -/
theorem taskStep_cases (d : Dir) (s : FwdState) :
    (s.pc d = .start ∧ (taskStep d s).pc d = .copying ∧
        (taskStep d s).trace = s.trace ++ [.copyCall d]) ∨
    (s.pc d = .copying ∧ (taskStep d s).pc d = .copying ∧ (taskStep d s).trace = s.trace) ∨
    (s.pc d = .copying ∧ ∃ e, (taskStep d s).pc d = .copied e ∧
        (taskStep d s).trace = s.trace ++ [.copyRet d e]) ∨
    (s.pc d = .copying ∧ (copyStep d s.world).2 = .nilDeref ∧ (taskStep d s).pc d = .crashed ∧
        (taskStep d s).trace = s.trace ++ [.nilDeref d]) ∨
    (∃ e, s.pc d = .copied (some e) ∧ (taskStep d s).pc d = .done ∧
        (taskStep d s).trace = s.trace ++ [.logf (logFormat d) [renderErr (some e)]]) ∨
    (s.pc d = .copied none ∧ (taskStep d s).pc d = .done ∧ (taskStep d s).trace = s.trace) ∨
    ((s.pc d = .done ∨ s.pc d = .crashed) ∧ taskStep d s = s) := by
  unfold taskStep
  split
  · next h => exact Or.inl ⟨h, by cases d <;> rfl, by cases d <;> rfl⟩
  · next h =>
    split
    · next w hc =>
      refine Or.inr (Or.inl ⟨h, ?_, rfl⟩)
      cases d <;> exact h
    · exact Or.inr (Or.inl ⟨h, h, rfl⟩)
    · next w e hc =>
      exact Or.inr (Or.inr (Or.inl ⟨h, e, by cases d <;> rfl, by cases d <;> rfl⟩))
    · next w hc =>
      exact Or.inr (Or.inr (Or.inr (Or.inl
        ⟨h, by rw [hc], by cases d <;> rfl, by cases d <;> rfl⟩)))
  · next e h =>
    exact Or.inr (Or.inr (Or.inr (Or.inr (Or.inl
      ⟨e, h, by cases d <;> rfl, by cases d <;> rfl⟩))))
  · next h =>
    exact Or.inr (Or.inr (Or.inr (Or.inr (Or.inr (Or.inl
      ⟨h, by cases d <;> rfl, by cases d <;> rfl⟩)))))
  · next h => exact Or.inr (Or.inr (Or.inr (Or.inr (Or.inr (Or.inr ⟨Or.inl h, rfl⟩)))))
  · next h => exact Or.inr (Or.inr (Or.inr (Or.inr (Or.inr (Or.inr ⟨Or.inr h, rfl⟩)))))

/-- A step of direction `d` leaves the program counter of the other direction alone. -/
theorem taskStep_pc_other (d d1 : Dir) (s : FwdState) (h : d1 ≠ d) :
    (taskStep d s).pc d1 = s.pc d1 := by
  unfold taskStep
  split
  · simp [emit_pc, setPc_pc_other _ _ _ _ h]
  · split
    · cases d1 <;> rfl
    · rfl
    · simp [emit_pc, setPc_pc_other _ _ _ _ h]
      cases d1 <;> rfl
    · simp [emit_pc, setPc_pc_other _ _ _ _ h]
      cases d1 <;> rfl
  · simp [emit_pc, setPc_pc_other _ _ _ _ h]
  · simp [setPc_pc_other _ _ _ _ h]
  · rfl
  · rfl

theorem logFormat_injective (d d1 : Dir) (h : logFormat d = logFormat d1) : d = d1 := by
  cases d <;> cases d1 <;> first | rfl | exact absurd h (by decide)

theorem copyCalls_snoc (d : Dir) (t : List Event) (e : Event) :
    copyCalls d (t ++ [e]) = copyCalls d t + (if e = .copyCall d then 1 else 0) := by
  unfold copyCalls
  rw [List.count_append, List.count_singleton]
  simp only [beq_iff_eq]

theorem copyRets_snoc_ret (d : Dir) (t : List Event) (r : Option Err) :
    copyRets d (t ++ [.copyRet d r]) = copyRets d t ++ [r] := by
  simp [copyRets, List.filterMap_append]

theorem copyLogs_snoc_log (d : Dir) (t : List Event) (args : List String) :
    copyLogs d (t ++ [.logf (logFormat d) args]) = copyLogs d t ++ [args] := by
  simp [copyLogs, List.filterMap_append]

/-- An event of direction `d` is invisible in the projections of another direction. -/
theorem proj_other (d d1 : Dir) (t : List Event) (e : Event) (he : copyEvent d e) (h : d1 ≠ d) :
    copyCalls d1 (t ++ [e]) = copyCalls d1 t ∧ copyRets d1 (t ++ [e]) = copyRets d1 t ∧
      copyLogs d1 (t ++ [e]) = copyLogs d1 t := by
  have hf : logFormat d ≠ logFormat d1 := fun hx => h (logFormat_injective _ _ hx).symm
  have h' : d ≠ d1 := fun hx => h hx.symm
  rcases he with rfl | ⟨r, rfl⟩ | rfl | ⟨err, rfl⟩
  · refine ⟨?_, by simp [copyRets, List.filterMap_append],
      by simp [copyLogs, List.filterMap_append]⟩
    rw [copyCalls_snoc, if_neg (by simpa using h')]
    rfl
  · refine ⟨?_, by simp [copyRets, List.filterMap_append, h'],
      by simp [copyLogs, List.filterMap_append]⟩
    rw [copyCalls_snoc, if_neg (by simp)]
    rfl
  · refine ⟨?_, by simp [copyRets, List.filterMap_append],
      by simp [copyLogs, List.filterMap_append]⟩
    rw [copyCalls_snoc, if_neg (by simp)]
    rfl
  · refine ⟨?_, by simp [copyRets, List.filterMap_append],
      by simp [copyLogs, List.filterMap_append, hf]⟩
    rw [copyCalls_snoc, if_neg (by simp)]
    rfl

/-- The projections of direction `d` after one of its own events. -/
theorem proj_call (d : Dir) (t : List Event) :
    copyCalls d (t ++ [.copyCall d]) = copyCalls d t + 1 ∧
      copyRets d (t ++ [.copyCall d]) = copyRets d t ∧
      copyLogs d (t ++ [.copyCall d]) = copyLogs d t := by
  refine ⟨by rw [copyCalls_snoc, if_pos rfl], by simp [copyRets, List.filterMap_append],
    by simp [copyLogs, List.filterMap_append]⟩

theorem proj_ret (d : Dir) (t : List Event) (r : Option Err) :
    copyCalls d (t ++ [.copyRet d r]) = copyCalls d t ∧
      copyRets d (t ++ [.copyRet d r]) = copyRets d t ++ [r] ∧
      copyLogs d (t ++ [.copyRet d r]) = copyLogs d t := by
  refine ⟨by rw [copyCalls_snoc, if_neg (by simp)]; rfl, copyRets_snoc_ret d t r,
    by simp [copyLogs, List.filterMap_append]⟩

theorem proj_nilDeref (d : Dir) (t : List Event) :
    copyCalls d (t ++ [.nilDeref d]) = copyCalls d t ∧
      copyRets d (t ++ [.nilDeref d]) = copyRets d t ∧
      copyLogs d (t ++ [.nilDeref d]) = copyLogs d t := by
  refine ⟨by rw [copyCalls_snoc, if_neg (by simp)]; rfl,
    by simp [copyRets, List.filterMap_append],
    by simp [copyLogs, List.filterMap_append]⟩

theorem proj_log (d : Dir) (t : List Event) (args : List String) :
    copyCalls d (t ++ [.logf (logFormat d) args]) = copyCalls d t ∧
      copyRets d (t ++ [.logf (logFormat d) args]) = copyRets d t ∧
      copyLogs d (t ++ [.logf (logFormat d) args]) = copyLogs d t ++ [args] := by
  refine ⟨by rw [copyCalls_snoc, if_neg (by simp)]; rfl,
    by simp [copyRets, List.filterMap_append],
    copyLogs_snoc_log d t args⟩

theorem traceOk_congr (d : Dir) (p : Pc) (t t1 : List Event)
    (h1 : copyCalls d t1 = copyCalls d t) (h2 : copyRets d t1 = copyRets d t)
    (h3 : copyLogs d t1 = copyLogs d t) (h : traceOk d p t) : traceOk d p t1 := by
  unfold traceOk at h ⊢
  rw [h1, h2, h3]
  exact h

theorem taskStep_traceOk (d d1 : Dir) (s : FwdState) (h : traceOk d1 (s.pc d1) s.trace) :
    traceOk d1 ((taskStep d s).pc d1) (taskStep d s).trace := by
  by_cases hd : d1 = d
  · subst hd
    rcases taskStep_cases d1 s with ⟨h0, h1, h2⟩ | ⟨h0, h1, h2⟩ | ⟨h0, e, h1, h2⟩ |
      ⟨h0, -, h1, h2⟩ | ⟨e, h0, h1, h2⟩ | ⟨h0, h1, h2⟩ | ⟨-, h1⟩
    · rw [h0] at h
      rw [h1, h2]
      obtain ⟨a, b, c⟩ := proj_call d1 s.trace
      simp only [traceOk] at h ⊢
      rw [a, b, c]
      exact ⟨by omega, h.2.1, h.2.2⟩
    · rw [h0] at h
      rw [h1, h2]
      exact h
    · rw [h0] at h
      rw [h1, h2]
      obtain ⟨a, b, c⟩ := proj_ret d1 s.trace e
      simp only [traceOk] at h ⊢
      rw [a, b, c, h.2.1]
      exact ⟨h.1, rfl, h.2.2⟩
    · rw [h0] at h
      rw [h1, h2]
      obtain ⟨a, b, c⟩ := proj_nilDeref d1 s.trace
      simp only [traceOk] at h ⊢
      rw [a, b, c]
      exact h
    · rw [h0] at h
      rw [h1, h2]
      obtain ⟨a, b, c⟩ := proj_log d1 s.trace [renderErr (some e)]
      simp only [traceOk] at h ⊢
      rw [a, b, c, h.2.2]
      exact ⟨h.1, some e, h.2.1, rfl⟩
    · rw [h0] at h
      rw [h1, h2]
      simp only [traceOk] at h ⊢
      exact ⟨h.1, none, h.2.1, h.2.2⟩
    · rw [h1]
      exact h
  · rw [taskStep_pc_other d d1 s hd]
    rcases taskStep_trace d s with ht | ⟨e, he, ht⟩
    · rw [ht]
      exact h
    · rw [ht]
      obtain ⟨a, b, c⟩ := proj_other d d1 s.trace e he hd
      exact traceOk_congr d1 _ _ _ a b c h

theorem step_traceOk (d d1 : Dir) (s : FwdState) (h : traceOk d1 (s.pc d1) s.trace) :
    traceOk d1 ((step d s).pc d1) (step d s).trace := by
  unfold step
  split
  · exact h
  · exact taskStep_traceOk d d1 s h

theorem run_traceOk (d1 : Dir) (s : FwdState) (sched : List Dir)
    (h : traceOk d1 (s.pc d1) s.trace) :
    traceOk d1 ((run s sched).pc d1) (run s sched).trace := by
  induction sched generalizing s with
  | nil => exact h
  | cons d ds ih => exact ih (step d s) (step_traceOk d d1 s h)

/-- A step of a task leaves the connections alone or makes one pass of the copy loop. -/
theorem taskStep_world (d : Dir) (s : FwdState) :
    (taskStep d s).world = s.world ∨
      (s.pc d = .copying ∧ (taskStep d s).world = (copyStep d s.world).1) := by
  unfold taskStep
  split
  · exact Or.inl (by cases d <;> rfl)
  · next h =>
    split
    · next w hc => exact Or.inr ⟨h, by rw [hc]⟩
    · exact Or.inl rfl
    · next w e hc => exact Or.inr ⟨h, by rw [hc]; cases d <;> rfl⟩
    · next w hc => exact Or.inr ⟨h, by rw [hc]; cases d <;> rfl⟩
  · exact Or.inl (by cases d <;> rfl)
  · exact Or.inl (by cases d <;> rfl)
  · exact Or.inl rfl
  · exact Or.inl rfl

theorem alive_pc (s : FwdState) (h : s.alive) (d : Dir) : s.pc d ≠ .crashed := by
  cases d
  · exact h.2.1
  · exact h.2.2

theorem alive_not_crashed (s : FwdState) (h : s.alive) : s.crashed = false := by
  simp [FwdState.crashed, h.2.1, h.2.2]

theorem step_eq_taskStep (d : Dir) (s : FwdState) (h : s.alive) : step d s = taskStep d s := by
  unfold step
  rw [alive_not_crashed s h]
  rfl

theorem taskStep_alive (d : Dir) (s : FwdState) (h : s.alive) : (taskStep d s).alive := by
  have hw : (taskStep d s).world.fwd.isSome = true := by
    rcases taskStep_world d s with hw | ⟨-, hw⟩
    · rw [hw]; exact h.1
    · rw [hw]; exact (copyStep_fwd d s.world h.1).1
  have hpc : ∀ d1, (taskStep d s).pc d1 ≠ .crashed := by
    intro d1
    by_cases hd : d1 = d
    · subst hd
      rcases taskStep_cases d1 s with ⟨-, h1, -⟩ | ⟨-, h1, -⟩ | ⟨-, e, h1, -⟩ |
        ⟨-, hc, -, -⟩ | ⟨e, -, h1, -⟩ | ⟨-, h1, -⟩ | ⟨-, h1⟩
      · rw [h1]; simp
      · rw [h1]; simp
      · rw [h1]; simp
      · exact absurd hc (copyStep_fwd d1 s.world h.1).2
      · rw [h1]; simp
      · rw [h1]; simp
      · rw [h1]; exact alive_pc s h d1
    · rw [taskStep_pc_other d d1 s hd]
      exact alive_pc s h d1
  exact ⟨hw, hpc .backendToInbound, hpc .inboundToBackend⟩

theorem step_alive (d : Dir) (s : FwdState) (h : s.alive) : (step d s).alive := by
  rw [step_eq_taskStep d s h]
  exact taskStep_alive d s h

theorem run_alive (s : FwdState) (sched : List Dir) (h : s.alive) : (run s sched).alive := by
  induction sched generalizing s with
  | nil => exact h
  | cons d ds ih => exact ih (step d s) (step_alive d s h)

/-- Once a task has left `start` it never returns to it. -/
theorem step_started (d d1 : Dir) (s : FwdState) (h : s.pc d1 ≠ .start) :
    (step d s).pc d1 ≠ .start := by
  unfold step
  split
  · exact h
  · by_cases hd : d1 = d
    · subst hd
      rcases taskStep_cases d1 s with ⟨h0, -, -⟩ | ⟨-, h1, -⟩ | ⟨-, e, h1, -⟩ |
        ⟨-, -, h1, -⟩ | ⟨e, -, h1, -⟩ | ⟨-, h1, -⟩ | ⟨-, h1⟩
      · exact absurd h0 h
      · rw [h1]; simp
      · rw [h1]; simp
      · rw [h1]; simp
      · rw [h1]; simp
      · rw [h1]; simp
      · rw [h1]; exact h
    · rw [taskStep_pc_other d d1 s hd]
      exact h

theorem run_started (d1 : Dir) (s : FwdState) (sched : List Dir) (h : s.pc d1 ≠ .start) :
    (run s sched).pc d1 ≠ .start := by
  induction sched generalizing s with
  | nil => exact h
  | cons d ds ih => exact ih (step d s) (step_started d d1 s h)

/-- In a live relay a task that gets a turn has entered its copy. -/
theorem run_turn_started (d1 : Dir) (s : FwdState) (sched : List Dir) (h : s.alive)
    (ht : 1 ≤ turns d1 sched) : (run s sched).pc d1 ≠ .start := by
  induction sched generalizing s with
  | nil => simp [turns] at ht
  | cons d ds ih =>
    by_cases hd : d = d1
    · subst hd
      show (run (step d s) ds).pc d ≠ .start
      apply run_started
      rw [step_eq_taskStep d s h]
      rcases taskStep_cases d s with ⟨-, h1, -⟩ | ⟨-, h1, -⟩ | ⟨-, e, h1, -⟩ |
        ⟨-, -, h1, -⟩ | ⟨e, -, h1, -⟩ | ⟨-, h1, -⟩ | ⟨h0, h1⟩
      · rw [h1]; simp
      · rw [h1]; simp
      · rw [h1]; simp
      · rw [h1]; simp
      · rw [h1]; simp
      · rw [h1]; simp
      · rw [h1]
        rcases h0 with h0 | h0 <;> rw [h0] <;> simp
    · show (run (step d s) ds).pc d1 ≠ .start
      apply ih (step d s) (step_alive d s h)
      simpa [turns, List.count_cons, hd] using ht

theorem writeCheck_full (nr : Nat) (er : Option Err) :
    writeCheck nr { nw := nr, err := none } er = readErrCheck er := by
  simp [writeCheck]

/-- One pass of the copy loop when the dial succeeded and writes do not fail:
it blocks on an exhausted source, and otherwise consumes one read result,
hands exactly its bytes to the destination, and touches nothing of the other
direction. -/
theorem copyStep_spec (d : Dir) (w : World) (hf : w.fwd.isSome = true) (hn : w.noWriteFault) :
    (w.srcRd d = [] ∧ copyStep d w = (w, .blocked)) ∨
    (∃ r rest, w.srcRd d = r :: rest ∧
      (copyStep d w).2 = readErrCheck r.err ∧
      (copyStep d w).1.srcRd d = rest ∧
      (copyStep d w).1.readLog d = w.readLog d ++ r.data ∧
      (copyStep d w).1.writeLog d = w.writeLog d ++ r.data ∧
      (copyStep d w).1.noWriteFault ∧
      ∀ d1, d1 ≠ d → (copyStep d w).1.srcRd d1 = w.srcRd d1 ∧
        (copyStep d w).1.readLog d1 = w.readLog d1 ∧
        (copyStep d w).1.writeLog d1 = w.writeLog d1) := by
  obtain ⟨f, hfw⟩ := Option.isSome_iff_exists.mp hf
  obtain ⟨hcw, hfw2⟩ := hn
  have hfwr : f.wr = [] := hfw2 f hfw
  cases d
  · cases hrd : f.rd with
    | nil =>
      left
      simp [World.srcRd, World.src, copyStep, Conn.read, hfw, hrd]
    | cons r rest =>
      right
      refine ⟨r, rest, by simp [World.srcRd, World.src, hfw, hrd], ?_⟩
      by_cases hlen : 0 < r.data.length
      · simp [copyStep, World.src, World.dst, World.srcRd, World.readLog, World.writeLog,
          World.afterRead, World.afterWrite, World.noWriteFault, Conn.read, Conn.write,
          hfw, hrd, hlen, hcw, hfwr, writeCheck_full]
        intro d1 hd1
        cases d1
        · exact absurd rfl hd1
        · simp
      · have hnil : r.data = [] := List.length_eq_zero.mp (by omega)
        simp [copyStep, World.src, World.dst, World.srcRd, World.readLog, World.writeLog,
          World.afterRead, World.afterWrite, World.noWriteFault, Conn.read, Conn.write,
          hfw, hrd, hnil, hcw, hfwr]
        intro d1 hd1
        cases d1
        · exact absurd rfl hd1
        · simp
  · cases hrd : w.conn.rd with
    | nil =>
      left
      simp [World.srcRd, World.src, copyStep, Conn.read, hrd]
    | cons r rest =>
      right
      refine ⟨r, rest, by simp [World.srcRd, World.src, hrd], ?_⟩
      by_cases hlen : 0 < r.data.length
      · simp [copyStep, World.src, World.dst, World.srcRd, World.readLog, World.writeLog,
          World.afterRead, World.afterWrite, World.noWriteFault, Conn.read, Conn.write,
          hfw, hrd, hlen, hcw, hfwr, writeCheck_full]
        intro d1 hd1
        cases d1
        · simp [hfw]
        · exact absurd rfl hd1
      · have hnil : r.data = [] := List.length_eq_zero.mp (by omega)
        simp [copyStep, World.src, World.dst, World.srcRd, World.readLog, World.writeLog,
          World.afterRead, World.afterWrite, World.noWriteFault, Conn.read, Conn.write,
          hfw, hrd, hnil, hcw, hfwr]
        intro d1 hd1
        cases d1
        · simp [hfw]
        · exact absurd rfl hd1

theorem run_append (s : FwdState) (a b : List Dir) : run s (a ++ b) = run (run s a) b := by
  induction a generalizing s with
  | nil => rfl
  | cons d ds ih => exact ih (step d s)

theorem sched_split (d : Dir) (sched : List Dir) (h : 1 ≤ turns d sched) :
    ∃ os rest, sched = os ++ d :: rest ∧ d ∉ os ∧ turns d sched = turns d rest + 1 := by
  have hm : d ∈ sched := List.count_pos_iff.mp h
  obtain ⟨os, rest, hs, hno⟩ := List.eq_append_cons_of_mem hm
  refine ⟨os, rest, hs, hno, ?_⟩
  subst hs
  simp [turns, List.count_append, List.count_cons, List.count_eq_zero_of_not_mem hno]

theorem taskStep_nofault (d : Dir) (s : FwdState) (ha : s.alive) (hn : s.world.noWriteFault) :
    (taskStep d s).world.noWriteFault := by
  rcases taskStep_world d s with hw | ⟨-, hw⟩
  · rw [hw]; exact hn
  · rw [hw]
    rcases copyStep_spec d s.world ha.1 hn with ⟨-, hc⟩ | ⟨r, rest, -, -, -, -, -, h, -⟩
    · rw [hc]; exact hn
    · exact h

theorem step_nofault (d : Dir) (s : FwdState) (ha : s.alive) (hn : s.world.noWriteFault) :
    (step d s).world.noWriteFault := by
  rw [step_eq_taskStep d s ha]
  exact taskStep_nofault d s ha hn

/-- A step of direction `d` changes nothing that another direction owns. -/
theorem step_frame (d d1 : Dir) (s : FwdState) (hne : d1 ≠ d) (ha : s.alive)
    (hn : s.world.noWriteFault) : (step d s).view d1 = s.view d1 := by
  rw [step_eq_taskStep d s ha]
  have hpc := taskStep_pc_other d d1 s hne
  have htr : copyRets d1 (taskStep d s).trace = copyRets d1 s.trace := by
    rcases taskStep_trace d s with ht | ⟨e, he, ht⟩
    · rw [ht]
    · rw [ht]; exact (proj_other d d1 s.trace e he hne).2.1
  have hw : (taskStep d s).world.srcRd d1 = s.world.srcRd d1 ∧
      (taskStep d s).world.readLog d1 = s.world.readLog d1 ∧
      (taskStep d s).world.writeLog d1 = s.world.writeLog d1 := by
    rcases taskStep_world d s with hw | ⟨-, hw⟩
    · rw [hw]; exact ⟨rfl, rfl, rfl⟩
    · rw [hw]
      rcases copyStep_spec d s.world ha.1 hn with ⟨-, hc⟩ | ⟨r, rest, -, -, -, -, -, -, h⟩
      · rw [hc]; exact ⟨rfl, rfl, rfl⟩
      · exact h d1 hne
  simp only [FwdState.view, hpc, htr, hw.1, hw.2.1, hw.2.2]

theorem run_frame (d1 : Dir) (s : FwdState) (os : List Dir) (h : d1 ∉ os) (ha : s.alive)
    (hn : s.world.noWriteFault) :
    (run s os).view d1 = s.view d1 ∧ (run s os).alive ∧ (run s os).world.noWriteFault := by
  induction os generalizing s with
  | nil => exact ⟨rfl, ha, hn⟩
  | cons d ds ih =>
    have hd : d1 ≠ d := fun hx => h (by simp [hx])
    have hds : d1 ∉ ds := fun hx => h (by simp [hx])
    obtain ⟨a, b, c⟩ := ih (step d s) hds (step_alive d s ha) (step_nofault d s ha hn)
    exact ⟨by rw [← step_frame d d1 s hd ha hn]; exact a, b, c⟩

/-- With writes that do not fail, every byte a direction has read is written,
in order, to its destination, and nothing else is. -/
theorem taskStep_logs (d d1 : Dir) (s : FwdState) (ha : s.alive) (hn : s.world.noWriteFault)
    (h : s.world.writeLog d1 = s.world.readLog d1) :
    (taskStep d s).world.writeLog d1 = (taskStep d s).world.readLog d1 := by
  rcases taskStep_world d s with hw | ⟨-, hw⟩
  · rw [hw]; exact h
  · rw [hw]
    rcases copyStep_spec d s.world ha.1 hn with ⟨-, hc⟩ | ⟨r, rest, -, -, -, h1, h2, -, h3⟩
    · rw [hc]; exact h
    · by_cases hd : d1 = d
      · subst hd
        rw [h1, h2, h]
      · obtain ⟨-, a, b⟩ := h3 d1 hd
        rw [a, b, h]

theorem run_logs (d1 : Dir) (s : FwdState) (sched : List Dir) (ha : s.alive)
    (hn : s.world.noWriteFault) (h : s.world.writeLog d1 = s.world.readLog d1) :
    (run s sched).world.writeLog d1 = (run s sched).world.readLog d1 := by
  induction sched generalizing s with
  | nil => exact h
  | cons d ds ih =>
    refine ih (step d s) (step_alive d s ha) (step_nofault d s ha hn) ?_
    rw [step_eq_taskStep d s ha]
    exact taskStep_logs d d1 s ha hn h

theorem own_start (d : Dir) (s : FwdState) (ha : s.alive) (hpc : s.pc d = .start) :
    (step d s).view d = (.copying, s.world.srcRd d, s.world.readLog d, s.world.writeLog d,
      copyRets d s.trace) := by
  rw [step_eq_taskStep d s ha]
  simp only [taskStep, hpc, FwdState.view, setPc_pc_same, emit_pc, emit_world, setPc_world,
    emit_trace, setPc_trace, (proj_call d s.trace).2.1]

theorem own_copied (d : Dir) (s : FwdState) (ha : s.alive) (e : Option Err)
    (hpc : s.pc d = .copied e) :
    (step d s).view d = (.done, s.world.srcRd d, s.world.readLog d, s.world.writeLog d,
      copyRets d s.trace) := by
  rw [step_eq_taskStep d s ha]
  cases e with
  | none =>
    simp only [taskStep, hpc, FwdState.view, setPc_pc_same, setPc_world, setPc_trace]
  | some err =>
    simp only [taskStep, hpc, FwdState.view, setPc_pc_same, emit_pc, emit_world, setPc_world,
      emit_trace, setPc_trace, (proj_log d s.trace _).2.1]

theorem own_done (d : Dir) (s : FwdState) (hpc : s.pc d = .done) : step d s = s := by
  unfold step
  split
  · rfl
  · simp only [taskStep, hpc]

/-- One pass of the copy loop on a read that returns bytes and no error. -/
theorem own_copy_more (d : Dir) (s : FwdState) (ha : s.alive) (hn : s.world.noWriteFault)
    (hpc : s.pc d = .copying) (c : List Byte) (rest : List ReadRes)
    (hrd : s.world.srcRd d = { data := c, err := none } :: rest) :
    (step d s).view d = (.copying, rest, s.world.readLog d ++ c, s.world.writeLog d ++ c,
      copyRets d s.trace) := by
  rw [step_eq_taskStep d s ha]
  rcases copyStep_spec d s.world ha.1 hn with ⟨h0, -⟩ | ⟨r, rest1, h0, h1, h2, h3, h4, -, -⟩
  · rw [hrd] at h0; exact absurd h0 (by simp)
  · rw [hrd] at h0
    simp only [List.cons.injEq] at h0
    obtain ⟨rfl, rfl⟩ := h0
    rcases hcs : copyStep d s.world with ⟨w1, res⟩
    rw [hcs] at h1 h2 h3 h4
    simp only [readErrCheck] at h1 h2 h3 h4
    subst h1
    simp only [taskStep, hpc, hcs, FwdState.view, h2, h3, h4]
    cases d <;> simp only [FwdState.pc] at hpc ⊢ <;> rw [hpc]

/-- The pass of the copy loop on the read that returns `io.EOF`: the copy
returns a nil error. -/
theorem own_copy_eof (d : Dir) (s : FwdState) (ha : s.alive) (hn : s.world.noWriteFault)
    (hpc : s.pc d = .copying) (c : List Byte) (rest : List ReadRes)
    (hrd : s.world.srcRd d = { data := c, err := some .eof } :: rest) :
    (step d s).view d = (.copied none, rest, s.world.readLog d ++ c, s.world.writeLog d ++ c,
      copyRets d s.trace ++ [none]) := by
  rw [step_eq_taskStep d s ha]
  rcases copyStep_spec d s.world ha.1 hn with ⟨h0, -⟩ | ⟨r, rest1, h0, h1, h2, h3, h4, -, -⟩
  · rw [hrd] at h0; exact absurd h0 (by simp)
  · rw [hrd] at h0
    simp only [List.cons.injEq] at h0
    obtain ⟨rfl, rfl⟩ := h0
    rcases hcs : copyStep d s.world with ⟨w1, res⟩
    rw [hcs] at h1 h2 h3 h4
    simp only [readErrCheck] at h1 h2 h3 h4
    subst h1
    simp only [taskStep, hpc, hcs, FwdState.view, h2, h3, h4, setPc_pc_same, emit_pc,
      emit_world, setPc_world, emit_trace, setPc_trace, (proj_ret d s.trace none).2.1]

theorem run_done (d : Dir) (s : FwdState) (sched : List Dir) (ha : s.alive)
    (hn : s.world.noWriteFault) (hpc : s.pc d = .done) : (run s sched).view d = s.view d := by
  induction sched generalizing s with
  | nil => rfl
  | cons d1 ds ih =>
    have hv : (step d1 s).view d = s.view d := by
      by_cases hd : d = d1
      · subst hd; rw [own_done d s hpc]
      · exact step_frame d1 d s hd ha hn
    have hpc1 : (step d1 s).pc d = .done := by
      have := congrArg Prod.fst hv
      simpa [FwdState.view, hpc] using this
    show (run (step d1 s) ds).view d = s.view d
    rw [ih (step d1 s) (step_alive d1 s ha) (step_nofault d1 s ha hn) hpc1, hv]

theorem view_pc (s : FwdState) (d : Dir) (p : Pc) (x : List ReadRes × List Byte × List Byte ×
    List (Option Err)) (h : s.view d = (p, x)) : s.pc d = p :=
  congrArg Prod.fst h

theorem view_srcRd (s : FwdState) (d : Dir) (p : Pc) (rd : List ReadRes)
    (x : List Byte × List Byte × List (Option Err)) (h : s.view d = (p, rd, x)) :
    s.world.srcRd d = rd :=
  congrArg (fun v => v.2.1) h

/-- After the copy has returned, one more turn ends the task. -/
theorem run_copied (d : Dir) (s : FwdState) (sched : List Dir) (ha : s.alive)
    (hn : s.world.noWriteFault) (e : Option Err) (hpc : s.pc d = .copied e)
    (ht : 1 ≤ turns d sched) :
    (run s sched).view d = (.done, s.world.srcRd d, s.world.readLog d, s.world.writeLog d,
      copyRets d s.trace) := by
  obtain ⟨os, rest, rfl, hno, -⟩ := sched_split d sched ht
  obtain ⟨hv, ha1, hn1⟩ := run_frame d s os hno ha hn
  have hpc1 : (run s os).pc d = .copied e := by
    rw [view_pc _ _ _ _ hv, hpc]
  have h2 := own_copied d (run s os) ha1 e hpc1
  have h3 := run_done d (step d (run s os)) rest (step_alive d _ ha1) (step_nofault d _ ha1 hn1)
    (view_pc _ _ _ _ h2)
  rw [run_append]
  show (run (step d (run s os)) rest).view d = _
  rw [h3, h2]
  simp only [FwdState.view] at hv
  simp only [Prod.mk.injEq] at hv
  obtain ⟨-, a, b, c, e⟩ := hv
  rw [a, b, c, e]

/-- The copy of a direction whose source delivers the chunks `pre` and then
ends with `last` and `io.EOF`: given enough turns the task ends, having read
and written exactly those bytes, its copy having returned nil. -/
theorem run_copying (d : Dir) (last : List Byte) (pre : List (List Byte)) :
    ∀ (s : FwdState) (sched : List Dir), s.alive → s.world.noWriteFault →
      s.pc d = .copying → s.world.srcRd d = streamOf pre last →
      pre.length + 2 ≤ turns d sched →
      (run s sched).view d = (.done, [], s.world.readLog d ++ (pre.flatten ++ last),
        s.world.writeLog d ++ (pre.flatten ++ last), copyRets d s.trace ++ [none]) := by
  induction pre with
  | nil =>
    intro s sched ha hn hpc hrd ht
    obtain ⟨os, rest, rfl, hno, hcnt⟩ := sched_split d sched (by omega)
    obtain ⟨hv, ha1, hn1⟩ := run_frame d s os hno ha hn
    simp only [FwdState.view, Prod.mk.injEq] at hv
    obtain ⟨v1, v2, v3, v4, v5⟩ := hv
    have h2 := own_copy_eof d (run s os) ha1 hn1 (by rw [v1, hpc]) last []
      (by rw [v2, hrd]; rfl)
    have h3 := run_copied d (step d (run s os)) rest (step_alive d _ ha1)
      (step_nofault d _ ha1 hn1) none (view_pc _ _ _ _ h2) (by simp at ht; omega)
    rw [run_append]
    show (run (step d (run s os)) rest).view d = _
    rw [h3]
    simp only [FwdState.view, Prod.mk.injEq] at h2
    obtain ⟨-, a, b, c, e⟩ := h2
    rw [a, b, c, e, v3, v4, v5]
    simp
  | cons c pre1 ih =>
    intro s sched ha hn hpc hrd ht
    obtain ⟨os, rest, rfl, hno, hcnt⟩ := sched_split d sched (by omega)
    obtain ⟨hv, ha1, hn1⟩ := run_frame d s os hno ha hn
    simp only [FwdState.view, Prod.mk.injEq] at hv
    obtain ⟨v1, v2, v3, v4, v5⟩ := hv
    have h2 := own_copy_more d (run s os) ha1 hn1 (by rw [v1, hpc]) c (streamOf pre1 last)
      (by rw [v2, hrd]; rfl)
    have h3 := ih (step d (run s os)) rest (step_alive d _ ha1) (step_nofault d _ ha1 hn1)
      (view_pc _ _ _ _ h2) (view_srcRd _ _ _ _ _ h2)
      (by simp only [List.length_cons] at ht; omega)
    rw [run_append]
    show (run (step d (run s os)) rest).view d = _
    rw [h3]
    simp only [FwdState.view, Prod.mk.injEq] at h2
    obtain ⟨-, -, b, c, e⟩ := h2
    rw [b, c, e, v3, v4, v5]
    simp

/-- The whole task of a direction, from its first turn. -/
theorem run_start (d : Dir) (last : List Byte) (pre : List (List Byte)) (s : FwdState)
    (sched : List Dir) (ha : s.alive) (hn : s.world.noWriteFault) (hpc : s.pc d = .start)
    (hrd : s.world.srcRd d = streamOf pre last) (ht : pre.length + 3 ≤ turns d sched) :
    (run s sched).view d = (.done, [], s.world.readLog d ++ (pre.flatten ++ last),
      s.world.writeLog d ++ (pre.flatten ++ last), copyRets d s.trace ++ [none]) := by
  obtain ⟨os, rest, rfl, hno, hcnt⟩ := sched_split d sched (by omega)
  obtain ⟨hv, ha1, hn1⟩ := run_frame d s os hno ha hn
  simp only [FwdState.view, Prod.mk.injEq] at hv
  obtain ⟨v1, v2, v3, v4, v5⟩ := hv
  have h2 := own_start d (run s os) ha1 (by rw [v1, hpc])
  have h3 := run_copying d last pre (step d (run s os)) rest (step_alive d _ ha1)
    (step_nofault d _ ha1 hn1) (view_pc _ _ _ _ h2)
    (by rw [view_srcRd _ _ _ _ _ h2, v2, hrd]) (by omega)
  rw [run_append]
  show (run (step d (run s os)) rest).view d = _
  rw [h3]
  simp only [FwdState.view, Prod.mk.injEq] at h2
  obtain ⟨-, -, b, c, e⟩ := h2
  rw [b, c, e, v3, v4, v5]

/-! ## The accept loop: results -/

theorem selectStmt_no_chan_write (port : String) (ev : LoopEnv) :
    Event.chanSend ∉ (selectStmt port ev).1 ∧ Event.chanClose ∉ (selectStmt port ev).1 ∧
      Event.chanSendCall ∉ (selectStmt port ev).1 := by
  cases ev with
  | doneReady => simp [selectStmt, doneCase]
  | accept a =>
    cases a <;> simp [selectStmt, defaultCase]

theorem acceptLoop_no_chan_write (port : String) (evs : List LoopEnv) :
    Event.chanSend ∉ (acceptLoop port evs).1 ∧ Event.chanClose ∉ (acceptLoop port evs).1 ∧
      Event.chanSendCall ∉ (acceptLoop port evs).1 := by
  induction evs with
  | nil => simp [acceptLoop]
  | cons ev rest ih =>
    rw [acceptLoop_cons]
    have h := selectStmt_no_chan_write port ev
    simp only [List.mem_append, not_or]
    exact ⟨⟨h.1, ih.1⟩, ⟨h.2.1, ih.2.1⟩, ⟨h.2.2, ih.2.2⟩⟩

/-- C3: the accept loop goes on after it has observed the shutdown signal.
`break` in `case <-done` ends the `select`, not the `for`: after the receive
the loop calls `Accept` again and dispatches the connection it gets, and no
input makes the loop return. -/
theorem accept_loop_goes_on_after_done (port : String) (conn : Conn) :
    acceptLoop port [.doneReady, .accept (.ok conn)]
        = ([.chanRecv, .acceptCall, .goForward conn port], false) ∧
      ∀ evs : List LoopEnv, (acceptLoop port evs).2 = false := by
  refine ⟨?_, acceptLoop_running port⟩
  rw [acceptLoop_cons, acceptLoop_cons]
  rfl

/-- C5: an iteration in which the shutdown signal is not observed and `Accept`
returns an error logs that error, dispatches no relay, completes by `continue`,
and the loop goes on with the next iteration: in the process the loop has not
exited, the remaining input is still to come and no relay was added. -/
theorem accept_error_logged_loop_continues (port : String) (e : Err) (rest : List LoopEnv)
    (t : List Event) (relays : List Relay) :
    selectStmt port (.accept (.error e))
        = ([.acceptCall, .logf "tsproxy couldn't accept connection: %v\n" [renderErr (some e)]],
            .cont) ∧
      dispatched (selectStmt port (.accept (.error e))).1 = [] ∧
      acceptLoop port (.accept (.error e) :: rest)
        = ([.acceptCall, .logf "tsproxy couldn't accept connection: %v\n" [renderErr (some e)]]
            ++ (acceptLoop port rest).1, (acceptLoop port rest).2) ∧
      loopStep port { pending := .accept (.error e) :: rest, loopTrace := t,
                      loopExited := false, relays := relays }
        = { pending := rest,
            loopTrace := t ++ [.acceptCall,
              .logf "tsproxy couldn't accept connection: %v\n" [renderErr (some e)]],
            loopExited := false, relays := relays } := by
  refine ⟨rfl, rfl, ?_, ?_⟩
  · rw [acceptLoop_cons]
    rfl
  · simp [loopStep, selectStmt, defaultCase, spawnedBy, dispatched]

/-- In a process without a panicked relay, the loop steps of the scheduler run
the accept loop: after one step per `Accept` result the loop has consumed the
results, its events are those of `acceptLoop`, it has not exited, and the
relays are the old ones followed by one spawned relay per accepted connection,
in order. -/
theorem loop_steps (dialer : Nat → String → String → Except Err Conn) (port : String)
    (rs : List (Except Err Conn)) :
    ∀ (rest : List LoopEnv) (t : List Event) (relays : List Relay),
      relays.any Relay.crashed = false →
      sysRun dialer port
          { pending := rs.map LoopEnv.accept ++ rest, loopTrace := t, loopExited := false,
            relays := relays }
          (List.replicate rs.length .loop)
        = { pending := rest, loopTrace := t ++ (acceptLoop port (rs.map LoopEnv.accept)).1,
            loopExited := false,
            relays := relays ++ (accepted rs).map (fun c => .spawned c port) } := by
  induction rs with
  | nil =>
    intro rest t relays _
    simp [sysRun, acceptLoop, accepted]
  | cons r rs ih =>
    intro rest t relays hc
    rw [List.map_cons, acceptLoop_cons, List.length_cons, List.replicate_succ]
    cases r with
    | error e =>
      have h1 : sysStep dialer port .loop
          { pending := (LoopEnv.accept (.error e) :: rs.map LoopEnv.accept) ++ rest,
            loopTrace := t, loopExited := false, relays := relays }
          = { pending := rs.map LoopEnv.accept ++ rest,
              loopTrace := t ++ (selectStmt port (.accept (.error e))).1,
              loopExited := false, relays := relays } := by
        simp [sysStep, Sys.crashed, hc, loopStep, selectStmt, defaultCase, spawnedBy, dispatched]
      rw [sysRun, h1, ih rest _ relays hc]
      simp [accepted]
    | ok c =>
      have h1 : sysStep dialer port .loop
          { pending := (LoopEnv.accept (.ok c) :: rs.map LoopEnv.accept) ++ rest,
            loopTrace := t, loopExited := false, relays := relays }
          = { pending := rs.map LoopEnv.accept ++ rest,
              loopTrace := t ++ (selectStmt port (.accept (.ok c))).1,
              loopExited := false, relays := relays ++ [.spawned c port] } := by
        simp [sysStep, Sys.crashed, hc, loopStep, selectStmt, defaultCase, spawnedBy, dispatched]
      have hc2 : (relays ++ [Relay.spawned c port]).any Relay.crashed = false := by
        simp [List.any_append, hc, Relay.crashed]
      rw [sysRun, h1, ih rest _ _ hc2]
      simp [accepted]

/-- C6: the accept loop depends on the state of the relays. After a relay whose
dial failed has panicked, the loop step of the process does nothing: the
pending `Accept` result is not consumed and its connection is not dispatched.
The same loop state takes the step when that relay has not run yet, and when
the relay's dial succeeded. In a process without a panicked relay the loop
hands each accepted connection, in acceptance order, to exactly one new
`forward` task with the configured port, one `Accept` call per result, and
stays in the loop. -/
theorem panicked_relay_stops_accept_loop (conn next : Conn) (port : String) (e : Err)
    (rest : List LoopEnv) (dialer : Nat → String → String → Except Err Conn)
    (rs : List (Except Err Conn)) :
    sysRun (fun _ _ _ => .error e) port
        { pending := .accept (.ok next) :: rest, loopTrace := [], loopExited := false,
          relays := [.spawned conn port] }
        [.relay 0 .backendToInbound, .relay 0 .backendToInbound, .relay 0 .backendToInbound,
         .loop]
      = sysRun (fun _ _ _ => .error e) port
        { pending := .accept (.ok next) :: rest, loopTrace := [], loopExited := false,
          relays := [.spawned conn port] }
        [.relay 0 .backendToInbound, .relay 0 .backendToInbound, .relay 0 .backendToInbound] ∧
      (sysRun (fun _ _ _ => .error e) port
        { pending := .accept (.ok next) :: rest, loopTrace := [], loopExited := false,
          relays := [.spawned conn port] }
        [.relay 0 .backendToInbound, .relay 0 .backendToInbound, .relay 0 .backendToInbound,
         .loop]).pending = .accept (.ok next) :: rest ∧
      (sysRun (fun _ _ _ => .error e) port
        { pending := .accept (.ok next) :: rest, loopTrace := [], loopExited := false,
          relays := [.spawned conn port] }
        [.relay 0 .backendToInbound, .relay 0 .backendToInbound, .relay 0 .backendToInbound,
         .loop]).loopTrace = [] ∧
      (sysRun (fun _ _ _ => .error e) port
        { pending := .accept (.ok next) :: rest, loopTrace := [], loopExited := false,
          relays := [.spawned conn port] }
        [.relay 0 .backendToInbound, .relay 0 .backendToInbound, .relay 0 .backendToInbound,
         .loop]).relays.length = 1 ∧
      sysStep (fun _ _ _ => .error e) port .loop
        { pending := .accept (.ok next) :: rest, loopTrace := [], loopExited := false,
          relays := [.spawned conn port] }
      = { pending := rest, loopTrace := [.acceptCall, .goForward next port],
          loopExited := false, relays := [.spawned conn port, .spawned next port] } ∧
      (sysRun (fun _ => sampleDialer) port
        { pending := .accept (.ok next) :: rest, loopTrace := [], loopExited := false,
          relays := [.spawned sampleConn port] }
        [.relay 0 .backendToInbound, .relay 0 .backendToInbound, .relay 0 .backendToInbound,
         .loop]).pending = rest ∧
      (sysRun (fun _ => sampleDialer) port
        { pending := .accept (.ok next) :: rest, loopTrace := [], loopExited := false,
          relays := [.spawned sampleConn port] }
        [.relay 0 .backendToInbound, .relay 0 .backendToInbound, .relay 0 .backendToInbound,
         .loop]).loopTrace = [.acceptCall, .goForward next port] ∧
      sysRun dialer port
          { pending := rs.map LoopEnv.accept, loopTrace := [], loopExited := false,
            relays := [] }
          (List.replicate rs.length .loop)
        = { pending := [], loopTrace := (acceptLoop port (rs.map LoopEnv.accept)).1,
            loopExited := false,
            relays := (accepted rs).map (fun c => .spawned c port) } ∧
      dispatched (acceptLoop port (rs.map LoopEnv.accept)).1
        = (accepted rs).map (fun c => (c, port)) ∧
      (acceptLoop port (rs.map LoopEnv.accept)).1.count .acceptCall = rs.length := by
  refine ⟨rfl, rfl, rfl, rfl, rfl, rfl, rfl, ?_, acceptLoop_dispatched port rs,
    acceptLoop_acceptCalls port rs⟩
  have h := loop_steps dialer port rs [] [] [] rfl
  simpa using h

/-! ## `main`: results -/

/-- In a list cut at an occurrence of `x`, everything that stands before the
first occurrence of `x` stands before the cut. -/
theorem mem_before_of_split {α : Type} (x : α) (p : List α) :
    ∀ (q before after : List α), x ∉ p → p ++ x :: q = before ++ x :: after →
      ∀ y ∈ p, y ∈ before := by
  induction p with
  | nil =>
    intro q before after _ _ y hy
    exact absurd hy (by simp)
  | cons a p ih =>
    intro q before after hx h y hy
    have hax : a ≠ x := fun hh => hx (by simp [hh])
    have hxp : x ∉ p := fun hh => hx (by simp [hh])
    cases before with
    | nil =>
      simp only [List.cons_append, List.nil_append, List.cons.injEq] at h
      exact absurd h.1 hax
    | cons b bs =>
      simp only [List.cons_append, List.cons.injEq] at h
      rcases List.mem_cons.mp hy with rfl | hy
      · rw [h.1]; simp
      · exact List.mem_cons_of_mem _ (ih q bs after hxp h.2 y hy)

theorem forwardStart_trace (dialer : String → String → Except Err Conn) (conn : Conn)
    (port : String) :
    (forwardStart dialer conn port).trace = [.dial "tcp" ("localhost:" ++ port), .goCopy] ∨
      ∃ e, (forwardStart dialer conn port).trace
        = [.dial "tcp" ("localhost:" ++ port),
           .logf "tsproxy couldn't connect to js backend: %v\n" [renderErr (some e)], .goCopy] := by
  unfold forwardStart
  rw [joinHostPort_localhost]
  dsimp only
  cases dialer "tcp" ("localhost:" ++ port) with
  | error e => exact Or.inr ⟨e, rfl⟩
  | ok f => exact Or.inl rfl

theorem copyEvent_not_chan (d : Dir) (e : Event) (h : copyEvent d e) :
    e ≠ .chanSend ∧ e ≠ .chanClose ∧ (∀ b, e ≠ .connClose b) ∧
      (∀ n a, e ≠ .dial n a) ∧ e ≠ .chanSendCall := by
  rcases h with rfl | ⟨r, rfl⟩ | rfl | ⟨err, rfl⟩ <;> simp

theorem forward_no_chan_write (dialer : String → String → Except Err Conn) (conn : Conn)
    (p : String) (sched : List Dir) :
    Event.chanSend ∉ (run (forwardStart dialer conn p) sched).trace ∧
      Event.chanClose ∉ (run (forwardStart dialer conn p) sched).trace ∧
      Event.chanSendCall ∉ (run (forwardStart dialer conn p) sched).trace := by
  obtain ⟨evs, h1, h2⟩ := run_trace (forwardStart dialer conn p) sched
  rw [h1]
  have h3 : Event.chanSend ∉ evs ∧ Event.chanClose ∉ evs ∧ Event.chanSendCall ∉ evs := by
    refine ⟨?_, ?_, ?_⟩
    · intro hm
      obtain ⟨d, hd⟩ := h2 _ hm
      exact (copyEvent_not_chan d _ hd).1 rfl
    · intro hm
      obtain ⟨d, hd⟩ := h2 _ hm
      exact (copyEvent_not_chan d _ hd).2.1 rfl
    · intro hm
      obtain ⟨d, hd⟩ := h2 _ hm
      exact (copyEvent_not_chan d _ hd).2.2.2.2 rfl
  rcases forwardStart_trace dialer conn p with h | ⟨e, h⟩ <;> rw [h] <;>
    simp [h3.1, h3.2.1, h3.2.2]

/-- The events of `main` before `cmd.Wait` returns, when startup succeeds. -/
theorem main_wait_none (hostname entrypoint port : String) (b : Bool) :
    main hostname entrypoint port
        { startErr := none, listenErr := none, waitRes := none, sendTaken := b }
      = ([.cmdStart entrypoint, .listenTLS "tcp" ":443",
          .logf "tsproxy forwarding from https://%s to localhost:%v\n" [hostname, port],
          .makeChan, .goAcceptLoop, .cmdWaitCall], .blocked) := rfl

/-- The events of `main` when the backend exits and the loop takes the send. -/
theorem main_send_taken (hostname entrypoint port : String) (werr : Option Err) :
    main hostname entrypoint port
        { startErr := none, listenErr := none, waitRes := some werr, sendTaken := true }
      = ([.cmdStart entrypoint, .listenTLS "tcp" ":443",
          .logf "tsproxy forwarding from https://%s to localhost:%v\n" [hostname, port],
          .makeChan, .goAcceptLoop, .cmdWaitCall, .cmdWaitRet werr,
          .logf "node exited with err: %v\n" [renderErr werr]]
          ++ [.chanSendCall, .chanSend], .returned) := rfl

/-- The events of `main` when the backend exits and the loop never receives. -/
theorem main_send_parked (hostname entrypoint port : String) (werr : Option Err) :
    main hostname entrypoint port
        { startErr := none, listenErr := none, waitRes := some werr, sendTaken := false }
      = ([.cmdStart entrypoint, .listenTLS "tcp" ":443",
          .logf "tsproxy forwarding from https://%s to localhost:%v\n" [hostname, port],
          .makeChan, .goAcceptLoop, .cmdWaitCall, .cmdWaitRet werr,
          .logf "node exited with err: %v\n" [renderErr werr]]
          ++ [.chanSendCall], .blocked) := rfl

/-- The events of `main` when `cmd.Start` fails. -/
theorem main_start_err (hostname entrypoint port : String) (e : Err) (le : Option Err)
    (wr : Option (Option Err)) (b : Bool) :
    main hostname entrypoint port
        { startErr := some e, listenErr := le, waitRes := wr, sendTaken := b }
      = ([.cmdStart entrypoint, .panicked e], .panicked) := rfl

/-- The events of `main` when `ListenTLS` fails. -/
theorem main_listen_err (hostname entrypoint port : String) (e : Err)
    (wr : Option (Option Err)) (b : Bool) :
    main hostname entrypoint port
        { startErr := none, listenErr := some e, waitRes := wr, sendTaken := b }
      = ([.cmdStart entrypoint, .listenTLS "tcp" ":443", .panicked e], .panicked) := rfl

/-- Wherever `main` begins or completes the send, `cmd.Wait` has returned before. -/
theorem main_send_after_wait (hostname entrypoint port : String) (env : MainEnv) (x : Event)
    (hx : x = .chanSendCall ∨ x = .chanSend) (before after : List Event)
    (h : (main hostname entrypoint port env).1 = before ++ x :: after) :
    ∃ werr, Event.cmdWaitRet werr ∈ before := by
  have hm : x ∈ (main hostname entrypoint port env).1 := by rw [h]; simp
  obtain ⟨se, le, wr, b⟩ := env
  cases se with
  | some e =>
    rw [main_start_err] at hm
    rcases hx with rfl | rfl <;> simp at hm
  | none =>
    cases le with
    | some e =>
      rw [main_listen_err] at hm
      rcases hx with rfl | rfl <;> simp at hm
    | none =>
      cases wr with
      | none =>
        rw [main_wait_none] at hm
        rcases hx with rfl | rfl <;> simp at hm
      | some werr =>
        refine ⟨werr, ?_⟩
        cases b with
        | true =>
          rw [main_send_taken] at h
          rcases hx with rfl | rfl
          · exact mem_before_of_split Event.chanSendCall _ [Event.chanSend] before after
              (by simp) h _ (by simp)
          · have h2 : ([Event.cmdStart entrypoint, .listenTLS "tcp" ":443",
                .logf "tsproxy forwarding from https://%s to localhost:%v\n" [hostname, port],
                .makeChan, .goAcceptLoop, .cmdWaitCall, .cmdWaitRet werr,
                .logf "node exited with err: %v\n" [renderErr werr], .chanSendCall]
                  : List Event) ++ Event.chanSend :: [] = before ++ Event.chanSend :: after := by
              rw [← h]; rfl
            exact mem_before_of_split Event.chanSend _ [] before after (by simp) h2 _ (by simp)
        | false =>
          rw [main_send_parked] at h hm
          rcases hx with rfl | rfl
          · exact mem_before_of_split Event.chanSendCall _ [] before after (by simp) h _
              (by simp)
          · simp at hm

/-- C10, counterexample: three executions of `main` in which no send on `done`
completes, so the number of sends is 0, not 1. When `cmd.Start` fails, `handle`
panics; while the backend runs, `cmd.Wait` has not returned; and when the
backend has exited but the accept loop stays parked in `Accept`, `main` is
blocked in `done <- true` for ever. -/
theorem main_executions_without_send :
    (main "glorified-spreadsheet" "index.js" "3000" failedStartEnv).1.count Event.chanSend = 0 ∧
      (main "glorified-spreadsheet" "index.js" "3000" failedStartEnv).2 = .panicked ∧
      (main "glorified-spreadsheet" "index.js" "3000" runningBackendEnv).1.count Event.chanSend
        = 0 ∧
      (main "glorified-spreadsheet" "index.js" "3000" runningBackendEnv).2 = .blocked ∧
      (main "glorified-spreadsheet" "index.js" "3000" parkedLoopEnv).1.count Event.chanSend
        = 0 ∧
      (main "glorified-spreadsheet" "index.js" "3000" parkedLoopEnv).2 = .blocked := by
  decide

/-- C10, amended: `main` begins the send on `done` at most once, the send
completes at most once, and `main` never closes the channel. The send is
begun exactly when `cmd.Start` and `ListenTLS` succeed and `cmd.Wait` returns,
and it completes exactly when, in addition, the accept loop receives; then
`main` returns, the completed send is its last event and the return of
`cmd.Wait` precedes it. When the loop never receives, `main` stays blocked in
the send. Wherever a send is begun or completed, `cmd.Wait` has returned
before. The accept loop and `forward` neither send on nor close the channel. -/
theorem done_sent_once_after_wait (hostname entrypoint port : String) (env : MainEnv) :
    (main hostname entrypoint port env).1.count Event.chanSendCall ≤ 1 ∧
      (main hostname entrypoint port env).1.count Event.chanSend ≤ 1 ∧
      Event.chanClose ∉ (main hostname entrypoint port env).1 ∧
      ((main hostname entrypoint port env).1.count Event.chanSendCall = 1 ↔
        env.startErr = none ∧ env.listenErr = none ∧ env.waitRes.isSome = true) ∧
      ((main hostname entrypoint port env).1.count Event.chanSend = 1 ↔
        env.startErr = none ∧ env.listenErr = none ∧ env.waitRes.isSome = true ∧
          env.sendTaken = true) ∧
      (∀ werr, env.startErr = none → env.listenErr = none → env.waitRes = some werr →
        env.sendTaken = true →
        (main hostname entrypoint port env).2 = .returned ∧
        ∃ before, (main hostname entrypoint port env).1
            = before ++ [Event.chanSendCall, Event.chanSend] ∧
          Event.cmdWaitRet werr ∈ before ∧ Event.chanSend ∉ before ∧
          Event.chanSendCall ∉ before) ∧
      (∀ werr, env.startErr = none → env.listenErr = none → env.waitRes = some werr →
        env.sendTaken = false →
        (main hostname entrypoint port env).2 = .blocked ∧
        Event.chanSend ∉ (main hostname entrypoint port env).1 ∧
        ∃ before, (main hostname entrypoint port env).1 = before ++ [Event.chanSendCall] ∧
          Event.cmdWaitRet werr ∈ before ∧ Event.chanSendCall ∉ before) ∧
      (∀ before after,
        (main hostname entrypoint port env).1 = before ++ Event.chanSendCall :: after →
        ∃ werr, Event.cmdWaitRet werr ∈ before) ∧
      (∀ before after,
        (main hostname entrypoint port env).1 = before ++ Event.chanSend :: after →
        ∃ werr, Event.cmdWaitRet werr ∈ before) ∧
      (∀ (p : String) (evs : List LoopEnv),
        Event.chanSend ∉ (acceptLoop p evs).1 ∧ Event.chanClose ∉ (acceptLoop p evs).1 ∧
          Event.chanSendCall ∉ (acceptLoop p evs).1) ∧
      (∀ (dialer : String → String → Except Err Conn) (conn : Conn) (p : String)
          (sched : List Dir),
        Event.chanSend ∉ (forward dialer conn p sched).trace ∧
        Event.chanClose ∉ (forward dialer conn p sched).trace ∧
        Event.chanSendCall ∉ (forward dialer conn p sched).trace) := by
  refine ⟨?_, ?_, ?_, ?_, ?_, ?_, ?_,
    main_send_after_wait hostname entrypoint port env _ (Or.inl rfl),
    main_send_after_wait hostname entrypoint port env _ (Or.inr rfl),
    acceptLoop_no_chan_write, forward_no_chan_write⟩
  · obtain ⟨se, le, wr, b⟩ := env
    cases se <;> cases le <;> cases wr <;> cases b <;>
      simp [main, handle, List.count_cons]
  · obtain ⟨se, le, wr, b⟩ := env
    cases se <;> cases le <;> cases wr <;> cases b <;>
      simp [main, handle, List.count_cons]
  · obtain ⟨se, le, wr, b⟩ := env
    cases se <;> cases le <;> cases wr <;> cases b <;> simp [main, handle]
  · obtain ⟨se, le, wr, b⟩ := env
    cases se <;> cases le <;> cases wr <;> cases b <;>
      simp [main, handle, List.count_cons]
  · obtain ⟨se, le, wr, b⟩ := env
    cases se <;> cases le <;> cases wr <;> cases b <;>
      simp [main, handle, List.count_cons]
  · intro werr h1 h2 h3 h4
    obtain ⟨se, le, wr, b⟩ := env
    simp only at h1 h2 h3 h4
    subst h1 h2 h3 h4
    rw [main_send_taken]
    exact ⟨rfl, _, rfl, by simp, by simp, by simp⟩
  · intro werr h1 h2 h3 h4
    obtain ⟨se, le, wr, b⟩ := env
    simp only at h1 h2 h3 h4
    subst h1 h2 h3 h4
    rw [main_send_parked]
    exact ⟨rfl, by simp, _, rfl, by simp, by simp⟩

/-- C10, witness: the sample environment, in which the backend starts and
exits and the accept loop takes the signal. -/
theorem done_sent_once_after_wait_witness :
    sampleMainEnv.startErr = none ∧ sampleMainEnv.listenErr = none ∧
      sampleMainEnv.waitRes = some none ∧ sampleMainEnv.sendTaken = true ∧
      (main "glorified-spreadsheet" "index.js" "3000" sampleMainEnv).2 = .returned ∧
      (main "glorified-spreadsheet" "index.js" "3000" sampleMainEnv).1.count Event.chanSend = 1 :=
  ⟨rfl, rfl, rfl, rfl,
    ((done_sent_once_after_wait "glorified-spreadsheet" "index.js" "3000"
      sampleMainEnv).2.2.2.2.2.1 none rfl rfl rfl rfl).1,
    (done_sent_once_after_wait "glorified-spreadsheet" "index.js" "3000"
      sampleMainEnv).2.2.2.2.1.mpr ⟨rfl, rfl, rfl, rfl⟩⟩

/-! ## `forward`: results -/

theorem forwardStart_ok (dialer : String → String → Except Err Conn) (conn fwd : Conn)
    (port : String) (h : dialer "tcp" (joinHostPort "localhost" port) = .ok fwd) :
    forwardStart dialer conn port
      = { world := { conn := conn, fwd := some fwd, inRead := [], inWritten := [],
                     beRead := [], beWritten := [] },
          g := .start, m := .start,
          trace := [.dial "tcp" (joinHostPort "localhost" port), .goCopy] } := by
  unfold forwardStart
  dsimp only
  rw [h]

theorem forwardStart_alive (dialer : String → String → Except Err Conn) (conn fwd : Conn)
    (port : String) (h : dialer "tcp" (joinHostPort "localhost" port) = .ok fwd) :
    (forwardStart dialer conn port).alive := by
  rw [forwardStart_ok dialer conn fwd port h]
  simp [FwdState.alive]

theorem forwardStart_traceOk (dialer : String → String → Except Err Conn) (conn : Conn)
    (port : String) (d : Dir) :
    traceOk d ((forwardStart dialer conn port).pc d) (forwardStart dialer conn port).trace := by
  have hpc : (forwardStart dialer conn port).pc d = .start := by
    unfold forwardStart
    dsimp only
    cases dialer "tcp" (joinHostPort "localhost" port) <;> cases d <;> rfl
  rw [hpc]
  rcases forwardStart_trace dialer conn port with h | ⟨e, h⟩
  · rw [h]
    simp [traceOk, copyCalls, copyRets, copyLogs]
  · rw [h]
    cases d <;> simp [traceOk, copyCalls, copyRets, copyLogs, logFormat]

theorem taskStep_status (d : Dir) (s : FwdState) :
    (taskStep d s).world.status = s.world.status := by
  rcases taskStep_world d s with hw | ⟨-, hw⟩
  · rw [hw]
  · rw [hw, copyStep_status]

theorem run_status (s : FwdState) (sched : List Dir) :
    (run s sched).world.status = s.world.status := by
  induction sched generalizing s with
  | nil => rfl
  | cons d ds ih =>
    show (run (step d s) ds).world.status = _
    rw [ih (step d s)]
    unfold step
    split
    · rfl
    · exact taskStep_status d s

theorem run_done_pc (d : Dir) (s : FwdState) (sched : List Dir) (h : s.pc d = .done) :
    (run s sched).pc d = .done := by
  induction sched generalizing s with
  | nil => exact h
  | cons d1 ds ih =>
    apply ih (step d1 s)
    unfold step
    split
    · exact h
    · by_cases hd : d = d1
      · subst hd
        simp only [taskStep, h]
      · rw [taskStep_pc_other d1 d s hd, h]

/-- Once the copy of a direction has returned, its next turn ends the task. -/
theorem run_copied_pc (d : Dir) (s : FwdState) (sched : List Dir) (ha : s.alive)
    (e : Option Err) (h : s.pc d = .copied e) (ht : 1 ≤ turns d sched) :
    (run s sched).pc d = .done := by
  induction sched generalizing s with
  | nil => simp [turns] at ht
  | cons d1 ds ih =>
    show (run (step d1 s) ds).pc d = .done
    by_cases hd : d1 = d
    · subst hd
      apply run_done_pc
      have h2 := own_copied d1 s ha e h
      exact view_pc _ _ _ _ h2
    · apply ih (step d1 s) (step_alive d1 s ha)
      · rw [step_eq_taskStep d1 s ha, taskStep_pc_other d1 d s (fun hx => hd hx.symm), h]
      · simpa [turns, List.count_cons, hd] using ht

theorem traceOk_done_of_rets (d : Dir) (p : Pc) (t : List Event) (r : Option Err)
    (h : traceOk d p t) (hr : copyRets d t = [r]) : p = .copied r ∨ p = .done := by
  cases p with
  | start => simp [traceOk, hr] at h
  | copying => simp [traceOk, hr] at h
  | copied e =>
    simp only [traceOk, hr, List.cons.injEq, and_true] at h
    exact Or.inl (by rw [h.2.1])
  | done => exact Or.inr rfl
  | crashed => simp [traceOk, hr] at h

theorem bytesOf_streamOf (pre : List (List Byte)) (last : List Byte) :
    bytesOf (streamOf pre last) = pre.flatten ++ last := by
  simp [bytesOf, streamOf, List.map_map, Function.comp_def]

/-- What a direction has read, followed by what its source will still
deliver, is always the whole stream. -/
theorem taskStep_stream (d d1 : Dir) (s : FwdState) (ha : s.alive)
    (hn : s.world.noWriteFault) :
    (taskStep d s).world.readLog d1 ++ bytesOf ((taskStep d s).world.srcRd d1)
      = s.world.readLog d1 ++ bytesOf (s.world.srcRd d1) := by
  rcases taskStep_world d s with hw | ⟨-, hw⟩
  · rw [hw]
  · rw [hw]
    rcases copyStep_spec d s.world ha.1 hn with ⟨-, hc⟩ | ⟨r, rest, h0, -, h1, h2, -, -, h3⟩
    · rw [hc]
    · by_cases hd : d1 = d
      · subst hd
        rw [h1, h2, h0]
        simp [bytesOf]
      · obtain ⟨a, b, -⟩ := h3 d1 hd
        rw [a, b]

theorem run_stream (d1 : Dir) (s : FwdState) (sched : List Dir) (ha : s.alive)
    (hn : s.world.noWriteFault) :
    (run s sched).world.readLog d1 ++ bytesOf ((run s sched).world.srcRd d1)
      = s.world.readLog d1 ++ bytesOf (s.world.srcRd d1) := by
  induction sched generalizing s with
  | nil => rfl
  | cons d ds ih =>
    have h := ih (step d s) (step_alive d s ha) (step_nofault d s ha hn)
    rw [step_eq_taskStep d s ha, taskStep_stream d d1 s ha hn] at h
    rw [← step_eq_taskStep d s ha] at h
    exact h

/-- C1: a failed dial is fatal to the process. `forward` goes on after logging
the failure, the goroutine it spawns calls `Read` on the nil backend
connection and panics, and after that nothing in the process runs: neither
the accept loop nor any relay takes another step. -/
theorem dial_failure_kills_process (conn : Conn) (port : String) (e : Err)
    (pending : List LoopEnv) :
    (forward (fun _ _ => .error e) conn port [.backendToInbound, .backendToInbound]).g
        = .crashed ∧
      Event.nilDeref .backendToInbound ∈
        (forward (fun _ _ => .error e) conn port [.backendToInbound, .backendToInbound]).trace ∧
      (sysRun (fun _ _ _ => .error e) port
        { pending := pending, loopTrace := [], loopExited := false,
          relays := [.spawned conn port] }
        [.relay 0 .backendToInbound, .relay 0 .backendToInbound,
         .relay 0 .backendToInbound]).crashed = true ∧
      ∀ ch : Choice,
        sysStep (fun _ _ _ => .error e) port ch
          (sysRun (fun _ _ _ => .error e) port
            { pending := pending, loopTrace := [], loopExited := false,
              relays := [.spawned conn port] }
            [.relay 0 .backendToInbound, .relay 0 .backendToInbound,
             .relay 0 .backendToInbound])
        = sysRun (fun _ _ _ => .error e) port
            { pending := pending, loopTrace := [], loopExited := false,
              relays := [.spawned conn port] }
            [.relay 0 .backendToInbound, .relay 0 .backendToInbound,
             .relay 0 .backendToInbound] := by
  have hc : (sysRun (fun _ _ _ => .error e) port
        { pending := pending, loopTrace := [], loopExited := false,
          relays := [.spawned conn port] }
        [.relay 0 .backendToInbound, .relay 0 .backendToInbound,
         .relay 0 .backendToInbound]).crashed = true := rfl
  refine ⟨rfl, ?_, hc, ?_⟩
  · simp [forward, run, step, taskStep, forwardStart, FwdState.crashed, FwdState.pc,
      FwdState.setPc, FwdState.emit, copyStep, World.src]
  · intro ch
    unfold sysStep
    rw [hc]
    rfl

/-- C2: after a failed dial the relay proceeds. Both copy directions are
entered: the tasks stand inside `io.Copy`, each with one call recorded. -/
theorem dial_failure_still_starts_copies (conn : Conn) (port : String) (e : Err) :
    (forward (fun _ _ => .error e) conn port [.backendToInbound, .inboundToBackend]).trace
      = [.dial "tcp" (joinHostPort "localhost" port),
         .logf "tsproxy couldn't connect to js backend: %v\n" [renderErr (some e)],
         .goCopy, .copyCall .backendToInbound, .copyCall .inboundToBackend] ∧
      (forward (fun _ _ => .error e) conn port [.backendToInbound, .inboundToBackend]).g
        = .copying ∧
      (forward (fun _ _ => .error e) conn port [.backendToInbound, .inboundToBackend]).m
        = .copying :=
  ⟨rfl, rfl, rfl⟩

/-- C8: whatever the dial returns and however the relay is scheduled,
`forward` dials exactly once, on network `tcp`, the address `localhost:`
followed by the port, which is what `net.JoinHostPort` yields for it. -/
theorem forward_dials_localhost_once (dialer : String → String → Except Err Conn)
    (conn : Conn) (port : String) (sched : List Dir) :
    dials (forward dialer conn port sched).trace = [("tcp", "localhost:" ++ port)] ∧
      joinHostPort "localhost" port = "localhost:" ++ port := by
  refine ⟨?_, joinHostPort_localhost port⟩
  unfold forward
  obtain ⟨evs, h1, h2⟩ := run_trace (forwardStart dialer conn port) sched
  have h3 : dials evs = [] := by
    unfold dials
    rw [List.filterMap_eq_nil_iff]
    intro x hx
    obtain ⟨d, hd⟩ := h2 x hx
    rcases hd with rfl | ⟨r, rfl⟩ | rfl | ⟨err, rfl⟩ <;> rfl
  have h4 : ∀ a b : List Event, dials (a ++ b) = dials a ++ dials b := by
    intro a b
    simp [dials, List.filterMap_append]
  rw [h1, h4, h3]
  rcases forwardStart_trace dialer conn port with h | ⟨e, h⟩ <;> rw [h] <;> rfl

/-- C4: when the dial succeeds, both sources deliver their chunks and then
end with `io.EOF`, and no write fails, then under every schedule the bytes
written to the backend are exactly the bytes read from the inbound connection,
in order, and the bytes written to the inbound connection are exactly the
bytes read from the backend; what was read plus what the source will still
deliver is the whole stream; and once a direction has had enough turns it is
done, its copy returned nil, and the whole stream of its source has reached
the other side. -/
theorem forward_relays_bytes (dialer : String → String → Except Err Conn) (conn fwd : Conn)
    (port : String) (sched : List Dir) (pre : List (List Byte)) (last : List Byte)
    (bpre : List (List Byte)) (blast : List Byte)
    (hdial : dialer "tcp" (joinHostPort "localhost" port) = .ok fwd)
    (hin : conn.rd = streamOf pre last) (hbe : fwd.rd = streamOf bpre blast)
    (hcw : conn.wr = []) (hfw : fwd.wr = []) :
    (forward dialer conn port sched).world.beWritten
        = (forward dialer conn port sched).world.inRead ∧
      (forward dialer conn port sched).world.inWritten
        = (forward dialer conn port sched).world.beRead ∧
      (forward dialer conn port sched).world.inRead
          ++ bytesOf ((forward dialer conn port sched).world.srcRd .inboundToBackend)
        = pre.flatten ++ last ∧
      (forward dialer conn port sched).world.beRead
          ++ bytesOf ((forward dialer conn port sched).world.srcRd .backendToInbound)
        = bpre.flatten ++ blast ∧
      (pre.length + 3 ≤ turns .inboundToBackend sched →
        (forward dialer conn port sched).m = .done ∧
        (forward dialer conn port sched).world.beWritten = pre.flatten ++ last ∧
        copyRets .inboundToBackend (forward dialer conn port sched).trace = [none]) ∧
      (bpre.length + 3 ≤ turns .backendToInbound sched →
        (forward dialer conn port sched).g = .done ∧
        (forward dialer conn port sched).world.inWritten = bpre.flatten ++ blast ∧
        copyRets .backendToInbound (forward dialer conn port sched).trace = [none]) := by
  unfold forward
  have ha := forwardStart_alive dialer conn fwd port hdial
  have hs := forwardStart_ok dialer conn fwd port hdial
  have hn : (forwardStart dialer conn port).world.noWriteFault := by
    rw [hs]
    refine ⟨hcw, ?_⟩
    intro f hf
    simp only [Option.some.injEq] at hf
    rw [← hf]
    exact hfw
  have hm := run_logs .inboundToBackend _ sched ha hn (by rw [hs]; rfl)
  have hg := run_logs .backendToInbound _ sched ha hn (by rw [hs]; rfl)
  have sm := run_stream .inboundToBackend _ sched ha hn
  have sg := run_stream .backendToInbound _ sched ha hn
  have sm0 : (forwardStart dialer conn port).world.srcRd .inboundToBackend = streamOf pre last := by
    rw [hs]; exact hin
  have sg0 : (forwardStart dialer conn port).world.srcRd .backendToInbound
      = streamOf bpre blast := by
    rw [hs]; exact hbe
  have rm0 : (forwardStart dialer conn port).world.readLog .inboundToBackend = [] := by
    rw [hs]; rfl
  have rg0 : (forwardStart dialer conn port).world.readLog .backendToInbound = [] := by
    rw [hs]; rfl
  have wm0 : (forwardStart dialer conn port).world.writeLog .inboundToBackend = [] := by
    rw [hs]; rfl
  have wg0 : (forwardStart dialer conn port).world.writeLog .backendToInbound = [] := by
    rw [hs]; rfl
  have tm0 : ∀ d, copyRets d (forwardStart dialer conn port).trace = [] := by
    intro d; rw [hs]; rfl
  have pm0 : ∀ d, (forwardStart dialer conn port).pc d = .start := by
    intro d; rw [hs]; cases d <;> rfl
  rw [sm0, rm0, bytesOf_streamOf, List.nil_append] at sm
  rw [sg0, rg0, bytesOf_streamOf, List.nil_append] at sg
  refine ⟨hm, hg, sm, sg, ?_, ?_⟩
  · intro ht
    have h := run_start .inboundToBackend last pre _ sched ha hn (pm0 _) sm0 ht
    rw [rm0, wm0, tm0] at h
    simp only [FwdState.view, Prod.mk.injEq, List.nil_append] at h
    exact ⟨h.1, h.2.2.2.1, h.2.2.2.2⟩
  · intro ht
    have h := run_start .backendToInbound blast bpre _ sched ha hn (pm0 _) sg0 ht
    rw [rg0, wg0, tm0] at h
    simp only [FwdState.view, Prod.mk.injEq, List.nil_append] at h
    exact ⟨h.1, h.2.2.2.1, h.2.2.2.2⟩

/-- C4, witness: the sample relay, run until both directions are done. -/
theorem forward_relays_bytes_witness :
    sampleDialer "tcp" (joinHostPort "localhost" "3000") = .ok sampleBackend ∧
      sampleConn.rd = streamOf [[1, 2], [3]] [] ∧ sampleBackend.rd = streamOf [[9]] [] ∧
      sampleConn.wr = [] ∧ sampleBackend.wr = [] ∧
      2 + 3 ≤ turns .inboundToBackend sampleSched ∧
      1 + 3 ≤ turns .backendToInbound sampleSched ∧
      (forward sampleDialer sampleConn "3000" sampleSched).m = .done ∧
      (forward sampleDialer sampleConn "3000" sampleSched).world.beWritten = [1, 2, 3] ∧
      (forward sampleDialer sampleConn "3000" sampleSched).g = .done ∧
      (forward sampleDialer sampleConn "3000" sampleSched).world.inWritten = [9] :=
  have h := forward_relays_bytes sampleDialer sampleConn sampleBackend "3000" sampleSched
    [[1, 2], [3]] [] [[9]] [] rfl rfl rfl rfl rfl
  ⟨rfl, rfl, rfl, rfl, rfl, by decide, by decide, (h.2.2.2.2.1 (by decide)).1,
    (h.2.2.2.2.1 (by decide)).2.1, (h.2.2.2.2.2 (by decide)).1, (h.2.2.2.2.2 (by decide)).2.1⟩

/-- C7, counterexample: in the sample relay both copy directions are done and
the inbound connection and the backend connection are still open. -/
theorem finished_relay_leaves_connections_open :
    (forward sampleDialer sampleConn "3000" sampleSched).finished = true ∧
      (forward sampleDialer sampleConn "3000" sampleSched).world.conn.closed = false ∧
      (forward sampleDialer sampleConn "3000" sampleSched).world.fwd.map Conn.closed
        = some false := by
  decide

/-- C7, amended: when the dial succeeds, `forward` closes nothing. Under every
schedule, also once both copy directions are done, the open/closed status of
the inbound connection and of the backend connection is what it was when
`forward` got them, and no close is among the events. -/
theorem forward_closes_nothing (dialer : String → String → Except Err Conn) (conn fwd : Conn)
    (port : String) (sched : List Dir)
    (hdial : dialer "tcp" (joinHostPort "localhost" port) = .ok fwd) :
    (forward dialer conn port sched).world.conn.closed = conn.closed ∧
      (forward dialer conn port sched).world.fwd.map Conn.closed = some fwd.closed ∧
      ∀ b, Event.connClose b ∉ (forward dialer conn port sched).trace := by
  unfold forward
  have h := run_status (forwardStart dialer conn port) sched
  rw [forwardStart_ok dialer conn fwd port hdial] at h
  simp only [World.status, Prod.mk.injEq, Option.map_some'] at h
  rw [forwardStart_ok dialer conn fwd port hdial]
  refine ⟨h.1, h.2, ?_⟩
  intro b hb
  obtain ⟨evs, h1, h2⟩ := run_trace
    ({ world := { conn := conn, fwd := some fwd, inRead := [], inWritten := [],
                  beRead := [], beWritten := [] },
       g := .start, m := .start,
       trace := [.dial "tcp" (joinHostPort "localhost" port), .goCopy] } : FwdState) sched
  rw [h1] at hb
  simp only [List.mem_append, List.mem_cons, List.mem_singleton, reduceCtorEq, or_self,
    false_or, List.not_mem_nil] at hb
  obtain ⟨d, hd⟩ := h2 _ hb
  exact (copyEvent_not_chan d _ hd).2.2.1 b rfl

/-- C7, witness: the sample relay. -/
theorem forward_closes_nothing_witness :
    sampleDialer "tcp" (joinHostPort "localhost" "3000") = .ok sampleBackend ∧
      (forward sampleDialer sampleConn "3000" sampleSched).world.conn.closed
        = sampleConn.closed ∧
      (forward sampleDialer sampleConn "3000" sampleSched).world.fwd.map Conn.closed
        = some sampleBackend.closed :=
  have h := forward_closes_nothing sampleDialer sampleConn sampleBackend "3000" sampleSched rfl
  ⟨rfl, h.1, h.2.1⟩

theorem run_rets_fixed (d : Dir) (s : FwdState) (sched : List Dir) (r : Option Err)
    (hok : traceOk d (s.pc d) s.trace) (hr : copyRets d s.trace = [r]) :
    copyRets d (run s sched).trace = [r] := by
  induction sched generalizing s with
  | nil => exact hr
  | cons d1 ds ih =>
    apply ih (step d1 s) (step_traceOk d1 d s hok)
    unfold step
    split
    · exact hr
    · by_cases hd : d = d1
      · subst hd
        rcases traceOk_done_of_rets d _ _ r hok hr with hp | hp
        · cases r with
          | none => simp only [taskStep, hp, setPc_trace]; exact hr
          | some e =>
            simp only [taskStep, hp, emit_trace, setPc_trace]
            rw [(proj_log d s.trace _).2.1]
            exact hr
        · simp only [taskStep, hp]
          exact hr
      · rcases taskStep_trace d1 s with ht | ⟨e, he, ht⟩
        · rw [ht]; exact hr
        · rw [ht, (proj_other d1 d s.trace e he hd).2.1]; exact hr

/-- C9: when the dial succeeds then, under every schedule and for each
direction, the copy of that direction is entered at most once and exactly once
as soon as the direction has had a turn, it returns at most once, and the log
lines of the direction are none, or one line that prints the non-nil error its
own copy returned; a direction that is done has logged exactly what its result
calls for (nothing for nil); and once the copy has returned `r`, one more turn
of the direction ends it with exactly the log lines that `r` calls for. -/
theorem forward_logs_exactly_copy_errors (dialer : String → String → Except Err Conn)
    (conn fwd : Conn) (port : String) (sched : List Dir) (d : Dir)
    (hdial : dialer "tcp" (joinHostPort "localhost" port) = .ok fwd) :
    copyCalls d (forward dialer conn port sched).trace ≤ 1 ∧
      (1 ≤ turns d sched → copyCalls d (forward dialer conn port sched).trace = 1) ∧
      (copyRets d (forward dialer conn port sched).trace).length ≤ 1 ∧
      (copyLogs d (forward dialer conn port sched).trace = [] ∨
        ∃ e, copyRets d (forward dialer conn port sched).trace = [some e] ∧
          copyLogs d (forward dialer conn port sched).trace
            = [[renderErr (some e)]]) ∧
      ((forward dialer conn port sched).pc d = .done →
        ∃ r, copyRets d (forward dialer conn port sched).trace = [r] ∧
          copyLogs d (forward dialer conn port sched).trace = expectedLogs r) ∧
      (∀ r more, copyRets d (forward dialer conn port sched).trace = [r] →
        1 ≤ turns d more →
        (forward dialer conn port (sched ++ more)).pc d = .done ∧
        copyRets d (forward dialer conn port (sched ++ more)).trace = [r] ∧
        copyLogs d (forward dialer conn port (sched ++ more)).trace
          = expectedLogs r) := by
  unfold forward
  simp only [run_append]
  have ha := run_alive _ sched (forwardStart_alive dialer conn fwd port hdial)
  have hok := run_traceOk d _ sched (forwardStart_traceOk dialer conn port d)
  have hst : 1 ≤ turns d sched → (run (forwardStart dialer conn port) sched).pc d ≠ .start :=
    run_turn_started d _ sched (forwardStart_alive dialer conn fwd port hdial)
  generalize run (forwardStart dialer conn port) sched = s at ha hok hst
  refine ⟨?_, ?_, ?_, ?_, ?_, ?_⟩
  · cases hp : s.pc d <;> rw [hp] at hok <;> simp only [traceOk] at hok
    · omega
    · omega
    · omega
    · omega
    · omega
  · intro ht
    have := hst ht
    cases hp : s.pc d <;> rw [hp] at hok <;> simp only [traceOk] at hok
    · exact absurd hp this
    · exact hok.1
    · exact hok.1
    · exact hok.1
    · exact hok.1
  · cases hp : s.pc d <;> rw [hp] at hok <;> simp only [traceOk] at hok
    · simp [hok.2.1]
    · simp [hok.2.1]
    · simp [hok.2.1]
    · obtain ⟨-, e, h1, -⟩ := hok
      simp [h1]
    · simp [hok.2.1]
  · cases hp : s.pc d <;> rw [hp] at hok <;> simp only [traceOk] at hok
    · exact Or.inl hok.2.2
    · exact Or.inl hok.2.2
    · exact Or.inl hok.2.2
    · obtain ⟨-, e, h1, h2⟩ := hok
      cases e with
      | none => exact Or.inl h2
      | some err => exact Or.inr ⟨err, h1, h2⟩
    · exact Or.inl hok.2.2
  · intro hp
    rw [hp] at hok
    exact hok.2
  · intro r more hr ht
    have hpc : (run s more).pc d = .done := by
      rcases traceOk_done_of_rets d _ _ r hok hr with hp | hp
      · exact run_copied_pc d s more ha r hp ht
      · exact run_done_pc d s more hp
    have hr2 := run_rets_fixed d s more r hok hr
    have hok2 := run_traceOk d s more hok
    rw [hpc] at hok2
    obtain ⟨-, e, h1, h2⟩ := hok2
    rw [hr2] at h1
    simp only [List.cons.injEq, and_true] at h1
    subst h1
    exact ⟨hpc, hr2, h2⟩

/-- C9, witness: a relay whose inbound peer resets after one chunk: the copy
from the inbound connection returns that error and, one turn later, its one
log line is there. -/
theorem forward_logs_exactly_copy_errors_witness :
    sampleDialer "tcp" (joinHostPort "localhost" "3000") = .ok sampleBackend ∧
      copyRets .inboundToBackend
          (forward sampleDialer resetConn "3000" [.inboundToBackend, .inboundToBackend]).trace
        = [some (.other "connection reset by peer")] ∧
      copyLogs .inboundToBackend
          (forward sampleDialer resetConn "3000"
            ([.inboundToBackend, .inboundToBackend] ++ [.inboundToBackend])).trace
        = [["connection reset by peer"]] :=
  ⟨rfl, by decide,
    ((forward_logs_exactly_copy_errors sampleDialer resetConn sampleBackend "3000"
        [.inboundToBackend, .inboundToBackend] .inboundToBackend rfl).2.2.2.2.2
      (some (.other "connection reset by peer")) [.inboundToBackend] (by decide)
      (by decide)).2.2⟩

end Tsproxy
